import Mathlib

/-!
Verification of the aPyNBT NBT / Region codec (src/aPyNBT/nbt.py and
src/aPyNBT/region.py) against its natural-language specification.

The Python code is shallowly embedded as follows.

 * A byte string (`bytes` / `memoryview`) is a `List Nat`; every byte the
   encoders emit is `< 256`.  Python slices clamp at the end of the buffer,
   which is exactly the behaviour of `List.take` / `List.drop`.
 * `int.from_bytes(b, 'big', signed=True)` / `int.to_bytes(w, 'big')` become
   `fromBytesSigned` / `toBytesSigned` over `Nat`/`Int` with explicit
   powers of 256 (`to_bytes` raising `OverflowError` becomes `Option.none`).
 * Python `str` values are lists of Unicode scalar values (`List Nat`);
   `str.encode('utf-8')` / `bytes.decode('utf-8')` become the strict UTF-8
   codec `utf8Encode` / `utf8Decode` below, which accepts and rejects exactly
   what CPython's strict utf-8 codec does (no surrogates, no overlong forms).
 * Any raised exception (struct.error, IndexError, KeyError, OverflowError,
   UnicodeError, AssertionError, ValueError) is `Option.none` /
   `Except.error`: the spec's error taxonomy maps each raise site to a name.
 * Float payloads: `TagFloat.deserialize_payload` stores the value obtained
   from `unpack("!f"/"!d")` and `serialize_payload` emits `pack` of it.  The
   embedding stores the raw 4/8-byte big-endian bit pattern itself, i.e. it
   treats `pack`/`unpack` as the identity on bit patterns (the spec demands
   exact bit preservation, "do not normalize").
 * The mutually recursive deserializers are given a `fuel` parameter purely
   to satisfy Lean's termination checker; `fuel = 0` yields `none`, and every
   theorem quantifies over (sufficiently large) fuel.  The Python code has no
   such parameter; its termination on the paths our theorems touch is exactly
   what the fuel bounds witness.
-/

namespace APyNBT

/-! ## Big-endian integer primitives (`int.from_bytes` / `int.to_bytes`, struct `!H`/`!I`) -/

/-- `int.from_bytes(bs, byteorder='big', signed=False)`. -/
def readBE (bs : List Nat) : Nat :=
  bs.foldl (fun acc b => acc * 256 + b) 0

/-- `value.to_bytes(w, byteorder='big', signed=False)` for an in-range value:
the `w`-byte big-endian representation of `v % 256^w`. -/
def beBytes : Nat → Nat → List Nat
  | 0, _ => []
  | w + 1, v => beBytes w (v / 256) ++ [v % 256]

/-- `int.from_bytes(bs, byteorder='big', signed=True)`: two's complement over
however many bytes the (possibly clamped) slice actually holds. -/
def fromBytesSigned (bs : List Nat) : Int :=
  let u := readBE bs
  if 2 * u < 256 ^ bs.length then (u : Int) else (u : Int) - (256 : Int) ^ bs.length

/-- `value.to_bytes(w, byteorder='big', signed=True)`; `OverflowError` outside
the signed `w`-byte range becomes `none`. -/
def toBytesSigned (w : Nat) (i : Int) : Option (List Nat) :=
  if -(256 : Int) ^ w ≤ 2 * i ∧ 2 * i < (256 : Int) ^ w then
    some (beBytes w ((i % (256 : Int) ^ w).toNat))
  else
    none

/-! ## UTF-8 (`str.encode('utf-8')` / `bytes.decode('utf-8')`, strict mode)

A Python `str` is modelled as its list of Unicode scalar values.  CPython's
strict utf-8 codec encodes scalar values below 0x110000 that are not
surrogates, and rejects exactly the non-shortest forms, surrogates and
out-of-range leads on decode. -/

/-- Encode one code point; `UnicodeEncodeError` (surrogates, out of range)
becomes `none`. -/
def utf8EncodeChar (c : Nat) : Option (List Nat) :=
  if c < 128 then some [c]
  else if c < 2048 then some [192 + c / 64, 128 + c % 64]
  else if c < 65536 then
    if 55296 ≤ c ∧ c ≤ 57343 then none
    else some [224 + c / 4096, 128 + c / 64 % 64, 128 + c % 64]
  else if c < 1114112 then
    some [240 + c / 262144, 128 + c / 4096 % 64, 128 + c / 64 % 64, 128 + c % 64]
  else none

/-- `s.encode('utf-8')`. -/
def utf8Encode (s : List Nat) : Option (List Nat) :=
  (s.mapM utf8EncodeChar).map List.flatten

-- `b.decode('utf-8')` (strict): rejects continuation-byte leads, overlong
-- encodings, surrogates and values above 0x10FFFF.  Split into one helper per
-- sequence length purely so that each equation unfolds cleanly.

mutual

def utf8Decode : List Nat → Option (List Nat)
  | [] => some []
  | b :: bs =>
    if b < 128 then (utf8Decode bs).map (b :: ·)
    else if b < 194 then none
    else if b < 224 then utf8DecodeTwo b bs
    else if b < 240 then utf8DecodeThree b bs
    else if b < 245 then utf8DecodeFour b bs
    else none
  termination_by l => l.length

def utf8DecodeTwo (b : Nat) : List Nat → Option (List Nat)
  | b1 :: bs1 =>
    if 128 ≤ b1 ∧ b1 < 192 then (utf8Decode bs1).map (((b - 192) * 64 + (b1 - 128)) :: ·)
    else none
  | [] => none
  termination_by l => l.length

def utf8DecodeThree (b : Nat) : List Nat → Option (List Nat)
  | b1 :: b2 :: bs2 =>
    if (if b = 224 then 160 ≤ b1 ∧ b1 < 192
        else if b = 237 then 128 ≤ b1 ∧ b1 < 160
        else 128 ≤ b1 ∧ b1 < 192) ∧ (128 ≤ b2 ∧ b2 < 192) then
      (utf8Decode bs2).map (((b - 224) * 4096 + (b1 - 128) * 64 + (b2 - 128)) :: ·)
    else none
  | _ => none
  termination_by l => l.length

def utf8DecodeFour (b : Nat) : List Nat → Option (List Nat)
  | b1 :: b2 :: b3 :: bs3 =>
    if (if b = 240 then 144 ≤ b1 ∧ b1 < 192
        else if b = 244 then 128 ≤ b1 ∧ b1 < 144
        else 128 ≤ b1 ∧ b1 < 192) ∧ (128 ≤ b2 ∧ b2 < 192) ∧ (128 ≤ b3 ∧ b3 < 192) then
      (utf8Decode bs3).map
        (((b - 240) * 262144 + (b1 - 128) * 4096 + (b2 - 128) * 64 + (b3 - 128)) :: ·)
    else none
  | _ => none
  termination_by l => l.length

end

/-! ## The tag tree (`class Tag` and its thirteen subclasses)

One constructor per concrete tag class, holding the payload in the same shape
the Python classes use after deserialization:

 * `TagInt` subclasses hold a Python `int` (`Int` here);
 * `TagFloat` subclasses hold the packed 4/8-byte pattern (see the header);
 * `TAG_Byte_Array` holds a `bytearray` (list of byte values);
 * `TAG_String` holds a `str` (list of scalar values);
 * `TAG_List` holds its `tagID` attribute (`None` until set) and its payload
   list.  Elements are unnamed/untagged; for "primitive" element kinds the
   source stores bare ints/floats/strings, which this embedding wraps in the
   corresponding constructor (the bytes on the wire are identical, see
   `serialize_primitive_eq_payload` below);
 * `TAG_Compound` holds (name, tag) children, the terminating `TAG_End`
   included, exactly as the source keeps the `TAG_End` in `self.payload`.
   A name is a `str`; the source's `TAG_End` has `name = None`, rendered `[]`.
-/

inductive NTag where
  | TAG_End : NTag
  | TAG_Byte (payload : Int) : NTag
  | TAG_Short (payload : Int) : NTag
  | TAG_Int (payload : Int) : NTag
  | TAG_Long (payload : Int) : NTag
  | TAG_Float (payload : List Nat) : NTag
  | TAG_Double (payload : List Nat) : NTag
  | TAG_Byte_Array (payload : List Nat) : NTag
  | TAG_String (payload : List Nat) : NTag
  | TAG_List (tagID : Option Nat) (payload : List NTag) : NTag
  | TAG_Compound (payload : List (List Nat × NTag)) : NTag
  | TAG_Int_Array (payload : List Int) : NTag
  | TAG_Long_Array (payload : List Int) : NTag

/-- The `tid` class attribute. -/
def tidOf : NTag → Nat
  | .TAG_End => 0
  | .TAG_Byte _ => 1
  | .TAG_Short _ => 2
  | .TAG_Int _ => 3
  | .TAG_Long _ => 4
  | .TAG_Float _ => 5
  | .TAG_Double _ => 6
  | .TAG_Byte_Array _ => 7
  | .TAG_String _ => 8
  | .TAG_List _ _ => 9
  | .TAG_Compound _ => 10
  | .TAG_Int_Array _ => 11
  | .TAG_Long_Array _ => 12

/-- `TAG_TYPES[t]._is_primitive`: true for the `TagInt` and `TagFloat`
subclasses and `TAG_String`. -/
def is_primitive (t : Nat) : Bool :=
  t = 1 || t = 2 || t = 3 || t = 4 || t = 5 || t = 6 || t = 8

def isEnd : NTag → Bool
  | .TAG_End => true
  | _ => false

/-! ## Serialization (`Tag.serialize` and the per-class `serialize_payload`) -/

/-- `Tag.serialize_name` for a named tag: utf-8 encode, 2-byte big-endian
length (OverflowError when the encoding exceeds 65535 bytes), then the
bytes. -/
def serialize_name (name : List Nat) : Option (List Nat) :=
  match utf8Encode name with
  | none => none
  | some encoded_string =>
    if encoded_string.length < 65536 then
      some (beBytes 2 encoded_string.length ++ encoded_string)
    else none

/-- `TAG_String.serialize_primitive`: identical framing to a name. -/
def TAG_String.serialize_primitive (value : List Nat) : Option (List Nat) :=
  match utf8Encode value with
  | none => none
  | some encoded_string =>
    if encoded_string.length < 65536 then
      some (beBytes 2 encoded_string.length ++ encoded_string)
    else none

/-- `TAG_TYPES[k].serialize_primitive(value)` for a primitive element kind `k`;
a payload whose Python type does not fit `k` raises (none). -/
def serialize_primitive : Nat → NTag → Option (List Nat)
  | 1, .TAG_Byte i => toBytesSigned 1 i
  | 2, .TAG_Short i => toBytesSigned 2 i
  | 3, .TAG_Int i => toBytesSigned 4 i
  | 4, .TAG_Long i => toBytesSigned 8 i
  | 5, .TAG_Float bs => if bs.length = 4 then some bs else none
  | 6, .TAG_Double bs => if bs.length = 8 then some bs else none
  | 8, .TAG_String s => TAG_String.serialize_primitive s
  | _, _ => none

/-- The loop in `TAG_List.serialize_payload` over a list of primitives. -/
def serialize_primitives (k : Nat) : List NTag → Option (List Nat)
  | [] => some []
  | e :: es =>
    match serialize_primitive k e with
    | none => none
    | some b =>
      match serialize_primitives k es with
      | none => none
      | some rest => some (b ++ rest)

/-- The loop in `TagIterableNumeric.serialize_payload` /
`TAG_Int_Array` / `TAG_Long_Array`: each entry `to_bytes(width, signed=True)`. -/
def numeric_bodies (width : Nat) : List Int → Option (List Nat)
  | [] => some []
  | x :: xs =>
    match toBytesSigned width x with
    | none => none
    | some b =>
      match numeric_bodies width xs with
      | none => none
      | some rest => some (b ++ rest)

/-- `TagIterableNumeric.serialize_payload`: u32 count then the packed
entries. -/
def serialize_numeric_array (width : Nat) (payload : List Int) : Option (List Nat) :=
  if payload.length < 4294967296 then
    match numeric_bodies width payload with
    | none => none
    | some body => some (beBytes 4 payload.length ++ body)
  else none

mutual

/-- Dispatch of the per-class `serialize_payload` methods.  `TAG_End` has no
payload serializer (`NotImplementedError` on the base class). -/
def serialize_payload : NTag → Option (List Nat)
  | .TAG_End => none
  | .TAG_Byte i => toBytesSigned 1 i
  | .TAG_Short i => toBytesSigned 2 i
  | .TAG_Int i => toBytesSigned 4 i
  | .TAG_Long i => toBytesSigned 8 i
  | .TAG_Float bs => if bs.length = 4 then some bs else none
  | .TAG_Double bs => if bs.length = 8 then some bs else none
  | .TAG_Byte_Array bs =>
    if bs.length < 4294967296 then some (beBytes 4 bs.length ++ bs) else none
  | .TAG_String s => TAG_String.serialize_primitive s
  | .TAG_List tagID payload => TAG_List.serialize_payload tagID payload
  | .TAG_Compound payload => TAG_Compound.serialize_payload payload
  | .TAG_Int_Array xs => serialize_numeric_array 4 xs
  | .TAG_Long_Array xs => serialize_numeric_array 8 xs
  termination_by t => (sizeOf t, 0)

/-- `TAG_List.serialize_payload`: recover a `None` tagID from the first
element's `tid` (IndexError on an empty payload), then emit the element-kind
byte, the u32 count, and the packed elements. -/
def TAG_List.serialize_payload (tagID : Option Nat) (payload : List NTag) :
    Option (List Nat) :=
  match tagID with
  | none =>
    match payload.head? with
    | none => none
    | some e => TAG_List.serialize_body (tidOf e) payload
  | some k => TAG_List.serialize_body k payload
  termination_by (sizeOf payload, 3)

def TAG_List.serialize_body (k : Nat) (payload : List NTag) : Option (List Nat) :=
  if k < 256 ∧ payload.length < 4294967296 then
    if payload.isEmpty then some (k :: beBytes 4 payload.length)
    else if is_primitive k then
      match serialize_primitives k payload with
      | none => none
      | some body => some (k :: (beBytes 4 payload.length ++ body))
    else
      match serialize_list_elems payload with
      | none => none
      | some body => some (k :: (beBytes 4 payload.length ++ body))
  else none
  termination_by (sizeOf payload, 2)

/-- The loop over non-primitive list elements: each element is serialized as
an unnamed, untagged tag (`tag.serialize()` with `_tagged = _named = False`;
`TAG_End` serializes to the single zero byte). -/
def serialize_list_elems : List NTag → Option (List Nat)
  | [] => some []
  | e :: es =>
    match (if isEnd e then some [0] else serialize_payload e) with
    | none => none
    | some b =>
      match serialize_list_elems es with
      | none => none
      | some rest => some (b ++ rest)
  termination_by l => (sizeOf l, 1)

/-- `TAG_Compound.serialize_payload`: `assert isinstance(self.payload[-1],
TAG_End)` (IndexError on empty), then concatenate each child's
`tag.serialize()`. -/
def TAG_Compound.serialize_payload (payload : List (List Nat × NTag)) :
    Option (List Nat) :=
  match payload.getLast? with
  | none => none
  | some last =>
    match last.2 with
    | .TAG_End => serialize_compound_items payload
    | _ => none
  termination_by (sizeOf payload, 2)

def serialize_compound_items : List (List Nat × NTag) → Option (List Nat)
  | [] => some []
  | (name, t) :: rest =>
    match Tag.serialize name t with
    | none => none
    | some b =>
      match serialize_compound_items rest with
      | none => none
      | some bs => some (b ++ bs)
  termination_by l => (sizeOf l, 1)

/-- `Tag.serialize` in the tagged+named framing used for top-level tags and
compound children: `TAG_End` is the single byte 0; otherwise tid byte, then
`serialize_name`, then `serialize_payload`. -/
def Tag.serialize (name : List Nat) (t : NTag) : Option (List Nat) :=
  if isEnd t then some [0]
  else
    match serialize_name name with
    | none => none
    | some nb =>
      match serialize_payload t with
      | none => none
      | some pb => some (tidOf t :: (nb ++ pb))
  termination_by (sizeOf t, 1)

end

/-- The module-level `serialize(nbt_tree)`: concatenate `tag.serialize()` over
the (named, tagged) roots. -/
def serialize (nbt_tree : List (List Nat × NTag)) : Option (List Nat) :=
  serialize_compound_items nbt_tree

/-! ## Well-formedness (spec section 3: a tag "well-formed for its kind")

Integer payloads in their signed range; float payloads hold their exact
4/8-byte pattern; byte strings are byte values; strings are scalar values with
utf-8 length at most 65535; a List carries an explicit valid element kind and
homogeneous, well-formed elements; a Compound ends in exactly one `TAG_End`
(name `None`/empty) and has no interior `TAG_End`.  The source's `validate()`
methods check a subset of this. -/

def wfName (s : List Nat) : Bool :=
  match utf8Encode s with
  | some b => decide (b.length ≤ 65535)
  | none => false

mutual

def wfTag : NTag → Bool
  | .TAG_End => true
  | .TAG_Byte i => decide (-128 ≤ i ∧ i < 128)
  | .TAG_Short i => decide (-32768 ≤ i ∧ i < 32768)
  | .TAG_Int i => decide (-2147483648 ≤ i ∧ i < 2147483648)
  | .TAG_Long i => decide (-9223372036854775808 ≤ i ∧ i < 9223372036854775808)
  | .TAG_Float bs => decide (bs.length = 4) && bs.all (· < 256)
  | .TAG_Double bs => decide (bs.length = 8) && bs.all (· < 256)
  | .TAG_Byte_Array bs => decide (bs.length < 4294967296) && bs.all (· < 256)
  | .TAG_String s => wfName s
  | .TAG_List tagID payload =>
    match tagID with
    | none => false
    | some k => decide (k ≤ 12) && decide (payload.length < 4294967296) && wfElems k payload
  | .TAG_Compound payload =>
    wfItems payload
      && (match payload.getLast? with
          | some (nm, .TAG_End) => nm.isEmpty
          | _ => false)
      && payload.dropLast.all (fun p => !isEnd p.2)
  | .TAG_Int_Array xs =>
    decide (xs.length < 4294967296)
      && xs.all (fun i => decide (-2147483648 ≤ i ∧ i < 2147483648))
  | .TAG_Long_Array xs =>
    decide (xs.length < 4294967296)
      && xs.all (fun i => decide (-9223372036854775808 ≤ i ∧ i < 9223372036854775808))
  termination_by t => (sizeOf t, 1)

def wfElems (k : Nat) : List NTag → Bool
  | [] => true
  | e :: es => decide (tidOf e = k) && wfTag e && wfElems k es
  termination_by l => (sizeOf l, 0)

def wfItems : List (List Nat × NTag) → Bool
  | [] => true
  | (nm, t) :: rest => wfName nm && wfTag t && wfItems rest
  termination_by l => (sizeOf l, 0)

end

/-- Well-formedness of a document (a list of named roots): each root is a
well-formed named tag; a `TAG_End` root carries no name. -/
def wfDoc (doc : List (List Nat × NTag)) : Bool :=
  wfItems doc && doc.all (fun p => !isEnd p.2 || p.1.isEmpty)

/-! ## Fuel bounds for the deserializer -/

mutual

def payloadFuel : NTag → Nat
  | .TAG_List _ payload => 1 + elemsFuel payload
  | .TAG_Compound payload => 1 + itemsFuel payload
  | _ => 1
  termination_by t => (sizeOf t, 1)

def elemsFuel : List NTag → Nat
  | [] => 1
  | e :: es => 1 + payloadFuel e + elemsFuel es
  termination_by l => (sizeOf l, 0)

def itemsFuel : List (List Nat × NTag) → Nat
  | [] => 1
  | (_, t) :: rest => 2 + payloadFuel t + itemsFuel rest
  termination_by l => (sizeOf l, 0)

end

def tagFuel (t : NTag) : Nat := 1 + payloadFuel t

/-! ## Deserialization (`Tag.deserialize` and the per-class
`deserialize_payload`)

Faithful to the canonical source:

 * `int.from_bytes` of a slice silently clamps at the end of the buffer
   (`fromBytesSigned (data.take w)`), while every `struct.unpack` call
   demands its exact width and raises otherwise;
 * `data[x:y][0]` raises IndexError on an empty slice (`head?`);
 * `TAG_TYPES[tag_id]` raises KeyError for an id outside 0..12;
 * `TAG_End`'s constructor ignores the data and reports `_size = 1`.

The `fuel` argument only pays for Lean's termination; see the header. -/

/-- `Tag.deserialize_name`: `unpack("!H", data[:2])`, then utf-8 decode of the
(clamped) name slice; returns the name and the consumed width `2 + size`. -/
def deserialize_name (data : List Nat) : Option (List Nat × Nat) :=
  if 2 ≤ data.length then
    let string_size := readBE (data.take 2)
    match utf8Decode ((data.drop 2).take string_size) with
    | none => none
    | some name => some (name, 2 + string_size)
  else none

/-- `struct.iter_unpack(sformat, buf)`: one signed value per full chunk. -/
def iter_unpack_signed (width : Nat) : Nat → List Nat → List Int
  | 0, _ => []
  | n + 1, buf => fromBytesSigned (buf.take width) :: iter_unpack_signed width n (buf.drop width)

/-- `TagIterableNumeric.deserialize_payload`: `unpack("!I")` count, then
`iter_unpack` over the (clamped) slice `data[4:4+width*count]`, which raises
unless the slice length is a multiple of the item width.  The reported width
is `4 + width*count` even when the slice was clamped. -/
def TagIterableNumeric.deserialize_payload (width : Nat) (data : List Nat) :
    Option (List Int × Nat) :=
  if 4 ≤ data.length then
    let array_size := readBE (data.take 4)
    let last_index := width * array_size
    let buf := (data.drop 4).take last_index
    if buf.length % width = 0 then
      some (iter_unpack_signed width (buf.length / width) buf, 4 + last_index)
    else none
  else none

mutual

/-- `Tag.deserialize` in the tagged+named framing (top level, compound
children): the caller's `TAG_TYPES[data[0]]` dispatch plus the constructor's
tid-skip, `deserialize_name`, `deserialize_payload`.  Returns
(name, tag, `_size`). -/
def Tag.deserialize : Nat → List Nat → Option (List Nat × NTag × Nat)
  | 0, _ => none
  | fuel + 1, data =>
    match data.head? with
    | none => none
    | some tag_id =>
      if tag_id = 0 then some ([], .TAG_End, 1)
      else if tag_id ≤ 12 then
        match deserialize_name (data.drop 1) with
        | none => none
        | some (name, name_width) =>
          match deserialize_payload fuel tag_id (data.drop (1 + name_width)) with
          | none => none
          | some (t, payload_width) => some (name, t, 1 + name_width + payload_width)
      else none

/-- Dispatch of the per-class `deserialize_payload` / `deserialize_primitive`
methods on the tag id.  Returns the tag and the consumed width. -/
def deserialize_payload : Nat → Nat → List Nat → Option (NTag × Nat)
  | 0, _, _ => none
  | fuel + 1, tag_id, data =>
    match tag_id with
    | 1 => some (.TAG_Byte (fromBytesSigned (data.take 1)), 1)
    | 2 => some (.TAG_Short (fromBytesSigned (data.take 2)), 2)
    | 3 => some (.TAG_Int (fromBytesSigned (data.take 4)), 4)
    | 4 => some (.TAG_Long (fromBytesSigned (data.take 8)), 8)
    | 5 => if 4 ≤ data.length then some (.TAG_Float (data.take 4), 4) else none
    | 6 => if 8 ≤ data.length then some (.TAG_Double (data.take 8), 8) else none
    | 7 =>
      if 4 ≤ data.length then
        let array_size := readBE (data.take 4)
        some (.TAG_Byte_Array ((data.drop 4).take array_size), 4 + array_size)
      else none
    | 8 =>
      if 2 ≤ data.length then
        let string_size := readBE (data.take 2)
        if string_size = 0 then some (.TAG_String [], 2)
        else
          match utf8Decode ((data.drop 2).take string_size) with
          | none => none
          | some s => some (.TAG_String s, 2 + string_size)
      else none
    | 9 =>
      match data.head? with
      | none => none
      | some elem_tid =>
        if 5 ≤ data.length then
          if elem_tid ≤ 12 then
            let array_size := readBE ((data.drop 1).take 4)
            match deserialize_list_elems fuel elem_tid array_size (data.drop 5) with
            | none => none
            | some (payload, w) => some (.TAG_List (some elem_tid) payload, 5 + w)
          else none
        else none
    | 10 =>
      match deserialize_compound_items fuel data with
      | none => none
      | some (payload, w) => some (.TAG_Compound payload, w)
    | 11 =>
      match TagIterableNumeric.deserialize_payload 4 data with
      | none => none
      | some (xs, w) => some (.TAG_Int_Array xs, w)
    | 12 =>
      match TagIterableNumeric.deserialize_payload 8 data with
      | none => none
      | some (xs, w) => some (.TAG_Long_Array xs, w)
    | _ => none

/-- The element loop of `TAG_List.deserialize_payload`: `array_size` elements,
each unnamed/untagged.  A primitive element kind goes through
`deserialize_primitive` (here: the corresponding `deserialize_payload`
branch, byte-identical); `TAG_End` elements cost one byte each. -/
def deserialize_list_elems : Nat → Nat → Nat → List Nat → Option (List NTag × Nat)
  | 0, _, _, _ => none
  | _ + 1, _, 0, _ => some ([], 0)
  | fuel + 1, elem_tid, n + 1, data =>
    match (if elem_tid = 0 then some (.TAG_End, 1)
           else deserialize_payload fuel elem_tid data) with
    | none => none
    | some (e, w) =>
      match deserialize_list_elems fuel elem_tid n (data.drop w) with
      | none => none
      | some (es, w2) => some (e :: es, w + w2)

/-- The loop of `TAG_Compound.deserialize_payload`: decode one tagged, named
child per iteration, appending it, until a `TAG_End` is decoded (which is
appended as the terminator). -/
def deserialize_compound_items : Nat → List Nat → Option (List (List Nat × NTag) × Nat)
  | 0, _ => none
  | fuel + 1, data =>
    match Tag.deserialize fuel data with
    | none => none
    | some (name, t, w) =>
      if isEnd t then some ([(name, t)], w)
      else
        match deserialize_compound_items fuel (data.drop w) with
        | none => none
        | some (items, w2) => some ((name, t) :: items, w + w2)

end

/-- The module-level `deserialize(nbt_data)`: one tagged/named root per
iteration while bytes remain; `assert tag._size >= 1` guards the loop. -/
def deserialize (fuel : Nat) (nbt_data : List Nat) : Option (List (List Nat × NTag)) :=
  if nbt_data.length = 0 then some []
  else
    match Tag.deserialize fuel nbt_data with
    | none => none
    | some (name, t, w) =>
      if _hw : 1 ≤ w then
        match deserialize fuel (nbt_data.drop w) with
        | none => none
        | some rest => some ((name, t) :: rest)
      else none
  termination_by nbt_data.length
  decreasing_by
    simp only [List.length_drop]
    omega

/-- Nesting-aware induction principle for `NTag` (the auto-generated recursor
of the nested inductive is awkward to use directly). -/
def NTag.recAux {motive : NTag → Prop}
    (hEnd : motive .TAG_End)
    (hByte : ∀ i, motive (.TAG_Byte i))
    (hShort : ∀ i, motive (.TAG_Short i))
    (hInt : ∀ i, motive (.TAG_Int i))
    (hLong : ∀ i, motive (.TAG_Long i))
    (hFloat : ∀ bs, motive (.TAG_Float bs))
    (hDouble : ∀ bs, motive (.TAG_Double bs))
    (hByteArray : ∀ bs, motive (.TAG_Byte_Array bs))
    (hString : ∀ s, motive (.TAG_String s))
    (hList : ∀ o es, (∀ e ∈ es, motive e) → motive (.TAG_List o es))
    (hCompound : ∀ cs, (∀ p ∈ cs, motive p.2) → motive (.TAG_Compound cs))
    (hIntArray : ∀ xs, motive (.TAG_Int_Array xs))
    (hLongArray : ∀ xs, motive (.TAG_Long_Array xs)) :
    ∀ t, motive t
  | .TAG_End => hEnd
  | .TAG_Byte i => hByte i
  | .TAG_Short i => hShort i
  | .TAG_Int i => hInt i
  | .TAG_Long i => hLong i
  | .TAG_Float bs => hFloat bs
  | .TAG_Double bs => hDouble bs
  | .TAG_Byte_Array bs => hByteArray bs
  | .TAG_String s => hString s
  | .TAG_List o es =>
    hList o es (fun e he =>
      NTag.recAux hEnd hByte hShort hInt hLong hFloat hDouble hByteArray hString hList
        hCompound hIntArray hLongArray e)
  | .TAG_Compound cs =>
    hCompound cs (fun p hp =>
      NTag.recAux hEnd hByte hShort hInt hLong hFloat hDouble hByteArray hString hList
        hCompound hIntArray hLongArray p.2)
  | .TAG_Int_Array xs => hIntArray xs
  | .TAG_Long_Array xs => hLongArray xs
  termination_by t => sizeOf t
  decreasing_by
  · have h1 := List.sizeOf_lt_of_mem he
    simp only [NTag.TAG_List.sizeOf_spec]
    omega
  · have h1 := List.sizeOf_lt_of_mem hp
    obtain ⟨a, b⟩ := p
    simp only [Prod.mk.sizeOf_spec] at h1
    simp only [NTag.TAG_Compound.sizeOf_spec]
    omega

/-- The payload round-trip property of a single tag, used as the induction
motive below. -/
def PayloadRT (t : NTag) : Prop :=
  wfTag t = true → ∀ b, serialize_payload t = some b →
    ∀ fuel, payloadFuel t ≤ fuel → ∀ rest,
      deserialize_payload fuel (tidOf t) (b ++ rest) = some (t, b.length)

/-! ## Region files (`region.py`)

`Region.serialize` and `Region.deserialize` walk the 32×32 chunk grid in
z-major order (`for z in range(32): for x in range(32)`).  We model the grid
as the z-major flattening `cells : List (Option Cell)` (1024 entries for a
real region; every statement is uniform in the length) with one timestamp per
cell.  Compression (`gzip.compress`/`zlib.compress`) is opaque: a `Cell`
carries the already-compressed chunk body. -/

structure Cell where
  comp : Nat
  data : List Nat

/-- Write-side failures of `Region.serialize`: `Compression(...)` ValueError,
`pack("!I", chunk_size)` and `pack("!B", span)` struct.error, `.to_bytes(3)`
OverflowError, `pack("!I", timestamp)` struct.error. -/
inductive RegionErr where
  | badCompression
  | sizeOverflow
  | chunkTooLarge
  | offsetOverflow
  | tsOverflow
deriving DecidableEq

/-- `chunk_size = 5 + len(serialized_chunk_data)` (after compression). -/
def chunk_size (c : Cell) : Nat := 5 + c.data.length

/-- `chunk_span = ceil(chunk_size / 4096)`. -/
def chunk_span (c : Cell) : Nat := (chunk_size c + 4095) / 4096

/-- The frame built in `chunk_bytes[z][x]`: a zero-filled `chunk_span * 4096`
buffer holding `pack("!I", chunk_size)`, `pack("!B", compression)` and the
compressed bytes. -/
def chunkFrame (c : Cell) : Except RegionErr (List Nat) :=
  if c.comp = 1 ∨ c.comp = 2 then
    if chunk_size c < 4294967296 then
      .ok (beBytes 4 (chunk_size c) ++ [c.comp] ++ c.data ++
        List.replicate (chunk_span c * 4096 - chunk_size c) 0)
    else .error .sizeOverflow
  else .error .badCompression

/-- The `next_offset` threading of `Region.serialize` (`next_offset = 2`,
advanced by each occupied cell's span); returns each cell's directory pair
`(offset, span)`, `(0, 0)` for empty cells (the `defaultdict` default). -/
def allocTable : Nat → List (Option Cell) → List (Nat × Nat)
  | _, [] => []
  | nxt, none :: rest => (0, 0) :: allocTable nxt rest
  | nxt, some c :: rest => (nxt, chunk_span c) :: allocTable (nxt + chunk_span c) rest

/-- One directory entry: `offset.to_bytes(3, "big") + pack("!B", span)`. -/
def metadataEntry (e : Nat × Nat) : Except RegionErr (List Nat) :=
  if e.1 < 16777216 then
    if e.2 < 256 then .ok (beBytes 3 e.1 ++ [e.2])
    else .error .chunkTooLarge
  else .error .offsetOverflow

/-- One timestamp entry: `pack("!I", timestamp)`. -/
def timestampEntry (ts : Nat) : Except RegionErr (List Nat) :=
  if ts < 4294967296 then .ok (beBytes 4 ts) else .error .tsOverflow

/-- The metadata loop: per cell, the directory entry then the timestamp. -/
def headerEntries : List ((Nat × Nat) × Nat) → Except RegionErr (List Nat × List Nat)
  | [] => .ok ([], [])
  | (e, ts) :: rest =>
    match metadataEntry e with
    | .error er => .error er
    | .ok mb =>
      match timestampEntry ts with
      | .error er => .error er
      | .ok tb =>
        match headerEntries rest with
        | .error er => .error er
        | .ok (ms, tbs) => .ok (mb ++ ms, tb ++ tbs)

/-- The chunk-serialization loop: frames of the occupied cells in z-major
order (`packed_chunk_data`). -/
def chunkFrames : List (Option Cell) → Except RegionErr (List Nat)
  | [] => .ok []
  | none :: rest => chunkFrames rest
  | some c :: rest =>
    match chunkFrame c with
    | .error er => .error er
    | .ok fb =>
      match chunkFrames rest with
      | .error er => .error er
      | .ok rest2 => .ok (fb ++ rest2)

/-- `Region.serialize`: frames for every occupied cell, then the two 4 KiB
header tables, returned as `metadata + timestamps + packed_chunk_data`. -/
def serializeRegion (cells : List (Option Cell)) (tss : List Nat) :
    Except RegionErr (List Nat) :=
  match chunkFrames cells with
  | .error er => .error er
  | .ok packed =>
    match headerEntries ((allocTable 2 cells).zip tss) with
    | .error er => .error er
    | .ok (meta, tsb) => .ok (meta ++ tsb ++ packed)

/-- What `Region.deserialize_chunk` records for one cell. -/
inductive ChunkRead where
  | absent
  | found (offset sectors timestamp chunk_size comp : Nat) (data : List Nat)

/-- `Region.deserialize_chunk`: directory lookup at `128*z + 4*x`
(clamped 3-byte `int.from_bytes` offset, `[0]` on the sector-count slice),
the `unpack("!I")` timestamp and length reads, the `Compression(...)` byte,
and the `chunk_size`-byte compressed slice after the compression byte.
`none` models a raised exception. -/
def deserialize_chunk (region_data : List Nat) (x z : Nat) : Option ChunkRead :=
  let m := 128 * z + 4 * x
  let offset := readBE ((region_data.drop m).take 3)
  match ((region_data.drop (m + 3)).take 1).head? with
  | none => none
  | some sectors =>
    if offset = 0 ∧ sectors = 0 then some .absent
    else
      let tsSlice := (region_data.drop (m + 4096)).take 4
      if tsSlice.length = 4 then
        let co := 4096 * offset
        let szSlice := (region_data.drop co).take 4
        if szSlice.length = 4 then
          match ((region_data.drop (co + 4)).take 1).head? with
          | none => none
          | some comp =>
            if comp = 1 ∨ comp = 2 then
              some (.found offset sectors (readBE tsSlice) (readBE szSlice) comp
                ((region_data.drop (co + 5)).take (readBE szSlice)))
            else none
        else none
      else none

/-- A 7-byte "compressed chunk" used to exercise the frame layout. -/
def c3cell : Cell := ⟨1, [10, 0, 0, 0, 0, 3, 0]⟩

/-! ## Theorems -/

theorem beBytes_length (w v : Nat) : (beBytes w v).length = w := by
  induction w generalizing v with
  | zero => rfl
  | succ w ih => simp [beBytes, ih]

theorem beBytes_lt (w v : Nat) : ∀ b ∈ beBytes w v, b < 256 := by
  induction w generalizing v with
  | zero => simp [beBytes]
  | succ w ih =>
    intro b hb
    rcases List.mem_append.1 hb with h | h
    · exact ih _ _ h
    · simp only [List.mem_singleton] at h
      omega

theorem readBE_append_singleton (bs : List Nat) (b : Nat) :
    readBE (bs ++ [b]) = readBE bs * 256 + b := by
  simp [readBE, List.foldl_append]

theorem readBE_beBytes (w v : Nat) : readBE (beBytes w v) = v % 256 ^ w := by
  induction w generalizing v with
  | zero => simp [beBytes, readBE, Nat.mod_one]
  | succ w ih =>
    rw [beBytes, readBE_append_singleton, ih]
    have hpow : 256 ^ (w + 1) = 256 * 256 ^ w := by ring
    rw [hpow, Nat.mod_mul]
    ring

theorem readBE_lt (bs : List Nat) (h : ∀ b ∈ bs, b < 256) :
    readBE bs < 256 ^ bs.length := by
  induction bs using List.reverseRecOn with
  | nil => simp [readBE]
  | append_singleton bs b ih =>
    rw [readBE_append_singleton]
    have hb : b < 256 := h b (by simp)
    have hbs : readBE bs < 256 ^ bs.length := ih (fun x hx => h x (by simp [hx]))
    have : readBE bs * 256 + b < 256 ^ bs.length * 256 := by nlinarith
    simpa [Nat.pow_succ] using this

theorem toBytesSigned_roundtrip (w : Nat) (i : Int) (bs : List Nat)
    (h : toBytesSigned w i = some bs) :
    fromBytesSigned bs = i ∧ bs.length = w ∧ ∀ b ∈ bs, b < 256 := by
  rw [toBytesSigned] at h
  split at h
  · rename_i hrange
    obtain ⟨hlo, hhi⟩ := hrange
    obtain rfl : bs = beBytes w ((i % (256 : Int) ^ w).toNat) := by
      injection h with h
      exact h.symm
    refine ⟨?_, beBytes_length _ _, beBytes_lt _ _⟩
    have hMpos : (0 : Int) < (256 : Int) ^ w := by positivity
    have hcast : ((256 ^ w : Nat) : Int) = (256 : Int) ^ w := by push_cast; ring
    have hmodeq : i % (256 : Int) ^ w = if 0 ≤ i then i else i + (256 : Int) ^ w := by
      split
      · exact Int.emod_eq_of_lt ‹0 ≤ i› (by omega)
      · have hrw : i % (256 : Int) ^ w = (i + (256 : Int) ^ w) % (256 : Int) ^ w := by
          simp [Int.add_mul_emod_self_left]
        rw [hrw, Int.emod_eq_of_lt (by omega) (by omega)]
    set u : Nat := (i % (256 : Int) ^ w).toNat with hu
    have hunn : (u : Int) = i % (256 : Int) ^ w :=
      Int.toNat_of_nonneg (Int.emod_nonneg _ (by omega))
    have husmall : (u : Int) < (256 : Int) ^ w := by
      rw [hunn]
      exact Int.emod_lt_of_pos _ hMpos
    have huN : u < 256 ^ w := by
      have := husmall
      rw [← hcast] at this
      exact_mod_cast this
    rw [fromBytesSigned]
    simp only [beBytes_length, readBE_beBytes, Nat.mod_eq_of_lt huN]
    rw [hmodeq] at hunn
    split
    · rename_i hcase
      have hcase' : ((2 * u : Nat) : Int) < (256 : Int) ^ w := by
        rw [← hcast]
        exact_mod_cast hcase
      split at hunn
      · omega
      · exfalso
        push_cast at hcase'
        omega
    · rename_i hcase
      have hcase' : ¬ ((2 * u : Nat) : Int) < (256 : Int) ^ w := by
        rw [← hcast]
        intro hc
        exact hcase (by exact_mod_cast hc)
      split at hunn
      · exfalso
        push_cast at hcase'
        omega
      · push_cast at hcase'
        omega
  · exact absurd h (by simp)

theorem utf8DecodeChar_prepend (c : Nat) (cb : List Nat) (h : utf8EncodeChar c = some cb)
    (tail : List Nat) :
    utf8Decode (cb ++ tail) = (utf8Decode tail).map (c :: ·) := by
  rw [utf8EncodeChar] at h
  split at h
  · rename_i h1
    obtain rfl : cb = [c] := by injection h with h; exact h.symm
    simp only [List.cons_append, List.nil_append]
    rw [utf8Decode]
    rw [if_pos h1]
  · split at h
    · rename_i h1 h2
      obtain rfl : cb = [192 + c / 64, 128 + c % 64] := by injection h with h; exact h.symm
      simp only [List.cons_append, List.nil_append]
      rw [utf8Decode]
      rw [if_neg (by omega), if_neg (by omega), if_pos (by omega), utf8DecodeTwo,
        if_pos (by omega)]
      have harith : (192 + c / 64 - 192) * 64 + (128 + c % 64 - 128) = c := by omega
      rw [harith]
    · split at h
      · split at h
        · exact absurd h (by simp)
        · rename_i h1 h2 h3 h4
          obtain rfl : cb = [224 + c / 4096, 128 + c / 64 % 64, 128 + c % 64] := by
            injection h with h; exact h.symm
          simp only [List.cons_append, List.nil_append]
          rw [utf8Decode]
          rw [if_neg (by omega), if_neg (by omega), if_neg (by omega), if_pos (by omega),
            utf8DecodeThree]
          rw [if_pos ?guard3]
          case guard3 =>
            refine ⟨?_, by omega, by omega⟩
            split
            · rename_i hb
              have hc4096 : c / 4096 = 0 := by omega
              omega
            · split
              · rename_i hb hb'
                have hc4096 : c / 4096 = 13 := by omega
                omega
              · rename_i hb hb'
                constructor
                · omega
                · omega
          · have harith :
                (224 + c / 4096 - 224) * 4096 + (128 + c / 64 % 64 - 128) * 64
                  + (128 + c % 64 - 128) = c := by omega
            rw [harith]
      · split at h
        · rename_i h1 h2 h3 h4
          obtain rfl :
              cb = [240 + c / 262144, 128 + c / 4096 % 64, 128 + c / 64 % 64, 128 + c % 64] := by
            injection h with h; exact h.symm
          simp only [List.cons_append, List.nil_append]
          rw [utf8Decode]
          rw [if_neg (by omega), if_neg (by omega), if_neg (by omega), if_neg (by omega),
            if_pos (by omega), utf8DecodeFour]
          rw [if_pos ?guard4]
          case guard4 =>
            refine ⟨?_, by omega, by omega, by omega⟩
            split
            · rename_i hb
              have : c / 262144 = 0 := by omega
              omega
            · split
              · rename_i hb hb'
                have : c / 262144 = 4 := by omega
                omega
              · rename_i hb hb'
                constructor
                · omega
                · omega
          · have harith :
                (240 + c / 262144 - 240) * 262144 + (128 + c / 4096 % 64 - 128) * 4096
                  + (128 + c / 64 % 64 - 128) * 64 + (128 + c % 64 - 128) = c := by omega
            rw [harith]
        · exact absurd h (by simp)

theorem utf8Encode_decode (s : List Nat) (b : List Nat) (h : utf8Encode s = some b) :
    utf8Decode b = some s := by
  induction s generalizing b with
  | nil =>
    rw [utf8Encode, List.mapM_nil] at h
    obtain rfl : b = [] := by simpa [pure, List.flatten] using h.symm
    rw [utf8Decode]
  | cons c cs ih =>
    rw [utf8Encode, List.mapM_cons] at h
    cases hc : utf8EncodeChar c with
    | none => rw [hc] at h; simp [pure, Option.bind] at h
    | some cb =>
      cases hcs : cs.mapM utf8EncodeChar with
      | none => rw [hc, hcs] at h; simp [pure, Option.bind] at h
      | some cbs =>
        rw [hc, hcs] at h
        obtain rfl : b = cb ++ cbs.flatten := by
          simpa [pure, Option.bind, List.flatten] using h.symm
        rw [utf8DecodeChar_prepend c cb hc]
        rw [ih cbs.flatten (by rw [utf8Encode, hcs]; rfl)]
        rfl

/-! ## Small facts about the model -/

theorem tidOf_le (t : NTag) : tidOf t ≤ 12 := by
  cases t <;> simp [tidOf]

theorem tidOf_eq_zero {t : NTag} (h : tidOf t = 0) : t = .TAG_End := by
  cases t <;> simp [tidOf] at h ⊢

theorem isEnd_iff {t : NTag} : isEnd t = true ↔ t = .TAG_End := by
  cases t <;> simp [isEnd]

theorem utf8EncodeChar_ne_nil {c : Nat} {cb : List Nat} (h : utf8EncodeChar c = some cb) :
    cb ≠ [] := by
  rw [utf8EncodeChar] at h
  split at h
  · injection h with h
    subst h
    simp
  · split at h
    · injection h with h
      subst h
      simp
    · split at h
      · split at h
        · exact absurd h (by simp)
        · injection h with h
          subst h
          simp
      · split at h
        · injection h with h
          subst h
          simp
        · exact absurd h (by simp)

theorem utf8Encode_eq_nil {s : List Nat} (h : utf8Encode s = some []) : s = [] := by
  cases s with
  | nil => rfl
  | cons c cs =>
    exfalso
    rw [utf8Encode, List.mapM_cons] at h
    cases hc : utf8EncodeChar c with
    | none => rw [hc] at h; simp [pure, Option.bind] at h
    | some cb =>
      cases hcs : cs.mapM utf8EncodeChar with
      | none => rw [hc, hcs] at h; simp [pure, Option.bind] at h
      | some cbs =>
        rw [hc, hcs] at h
        have hfl : cb ++ cbs.flatten = [] := by
          simpa [pure, Option.bind, List.flatten] using h
        exact utf8EncodeChar_ne_nil hc (by
          cases cb with
          | nil => rfl
          | cons x xs => simp at hfl)

/-- Decoding a name written by `serialize_name`, with any continuation. -/
theorem deserialize_name_of_serialize {nm nb : List Nat} (h : serialize_name nm = some nb)
    (rest : List Nat) :
    deserialize_name (nb ++ rest) = some (nm, nb.length) := by
  rw [serialize_name] at h
  cases henc : utf8Encode nm with
  | none => rw [henc] at h; simp at h
  | some eb =>
    rw [henc] at h
    dsimp only at h
    split at h
    · rename_i hlen
      obtain rfl : nb = beBytes 2 eb.length ++ eb := by injection h with h; exact h.symm
      have h2 : (beBytes 2 eb.length).length = 2 := beBytes_length _ _
      rw [deserialize_name]
      rw [if_pos (by simp only [List.length_append, h2]; omega)]
      have htake2 : ((beBytes 2 eb.length ++ eb) ++ rest).take 2 = beBytes 2 eb.length := by
        rw [List.append_assoc]
        exact List.take_left' h2
      have hdrop2 : ((beBytes 2 eb.length ++ eb) ++ rest).drop 2 = eb ++ rest := by
        rw [List.append_assoc]
        exact List.drop_left' h2
      rw [htake2, hdrop2, readBE_beBytes]
      have hp2 : 256 ^ 2 = 65536 := by norm_num
      rw [hp2, Nat.mod_eq_of_lt hlen]
      dsimp only
      rw [List.take_left, utf8Encode_decode nm eb henc]
      simp only [List.length_append, h2]
    · simp at h

/-- For a primitive element kind, the source's
`TAG_TYPES[tagID].serialize_primitive(value)` writes exactly the bytes of the
element's own `serialize_payload`. -/
theorem serialize_primitive_eq {k : Nat} {e : NTag} (hprim : is_primitive k = true)
    (htid : tidOf e = k) : serialize_primitive k e = serialize_payload e := by
  subst htid
  cases e with
  | TAG_Byte i => simp [serialize_primitive, serialize_payload, tidOf]
  | TAG_Short i => simp [serialize_primitive, serialize_payload, tidOf]
  | TAG_Int i => simp [serialize_primitive, serialize_payload, tidOf]
  | TAG_Long i => simp [serialize_primitive, serialize_payload, tidOf]
  | TAG_Float bs => simp [serialize_primitive, serialize_payload, tidOf]
  | TAG_Double bs => simp [serialize_primitive, serialize_payload, tidOf]
  | TAG_String s => simp [serialize_primitive, serialize_payload, tidOf]
  | TAG_End => simp [is_primitive, tidOf] at hprim
  | TAG_Byte_Array bs => simp [is_primitive, tidOf] at hprim
  | TAG_List o es => simp [is_primitive, tidOf] at hprim
  | TAG_Compound cs => simp [is_primitive, tidOf] at hprim
  | TAG_Int_Array xs => simp [is_primitive, tidOf] at hprim
  | TAG_Long_Array xs => simp [is_primitive, tidOf] at hprim

theorem numeric_bodies_spec {w : Nat} (hw : 0 < w) : ∀ {xs : List Int} {body : List Nat},
    numeric_bodies w xs = some body →
    body.length = w * xs.length ∧ iter_unpack_signed w xs.length body = xs := by
  intro xs
  induction xs with
  | nil =>
    intro body h
    obtain rfl : body = [] := by simpa [numeric_bodies] using h.symm
    simp [iter_unpack_signed]
  | cons x xs ih =>
    intro body h
    rw [numeric_bodies] at h
    cases hx : toBytesSigned w x with
    | none => rw [hx] at h; simp at h
    | some bx =>
      rw [hx] at h
      cases hxs : numeric_bodies w xs with
      | none => rw [hxs] at h; simp at h
      | some body2 =>
        rw [hxs] at h
        obtain rfl : body = bx ++ body2 := by simpa using h.symm
        obtain ⟨hfb, hlen, _⟩ := toBytesSigned_roundtrip w x bx hx
        obtain ⟨hlen2, hiter⟩ := ih hxs
        constructor
        · simp only [List.length_append, hlen, hlen2, List.length_cons]
          ring
        · rw [List.length_cons, iter_unpack_signed]
          rw [List.take_left' hlen, List.drop_left' hlen, hfb, hiter]

/-- Round-trip of `TAG_Int_Array` / `TAG_Long_Array` payload bytes. -/
theorem numeric_array_rt {w : Nat} (hw : 0 < w) {xs : List Int} {b : List Nat}
    (h : serialize_numeric_array w xs = some b) (rest : List Nat) :
    TagIterableNumeric.deserialize_payload w (b ++ rest) = some (xs, b.length) := by
  rw [serialize_numeric_array] at h
  split at h
  · rename_i hcount
    cases hnb : numeric_bodies w xs with
    | none => rw [hnb] at h; simp at h
    | some body =>
      rw [hnb] at h
      obtain rfl : b = beBytes 4 xs.length ++ body := by simpa using h.symm
      obtain ⟨hlen, hiter⟩ := numeric_bodies_spec hw hnb
      have h4 : (beBytes 4 xs.length).length = 4 := beBytes_length _ _
      rw [TagIterableNumeric.deserialize_payload]
      rw [if_pos (by simp only [List.length_append, h4]; omega)]
      have htake4 : ((beBytes 4 xs.length ++ body) ++ rest).take 4 = beBytes 4 xs.length := by
        rw [List.append_assoc]
        exact List.take_left' h4
      have hdrop4 : ((beBytes 4 xs.length ++ body) ++ rest).drop 4 = body ++ rest := by
        rw [List.append_assoc]
        exact List.drop_left' h4
      rw [htake4, hdrop4, readBE_beBytes]
      have hp4 : 256 ^ 4 = 4294967296 := by norm_num
      rw [hp4, Nat.mod_eq_of_lt hcount]
      dsimp only
      rw [List.take_left' hlen]
      have hmod : body.length % w = 0 := by
        rw [hlen]
        exact Nat.mul_mod_right w xs.length
      rw [if_pos hmod]
      have hdiv : body.length / w = xs.length := by
        rw [hlen]
        exact Nat.mul_div_cancel_left _ hw
      rw [hdiv, hiter]
      simp only [List.length_append, h4, hlen]
  · simp at h

/-- One iteration of the `TAG_List.deserialize_payload` loop recovers the
element that one iteration of `TAG_List.serialize_payload` wrote. -/
theorem elem_step {k : Nat} {e : NTag} (htid : tidOf e = k) (hwf : wfTag e = true)
    (hRT : PayloadRT e) {b : List Nat}
    (hb : (if is_primitive k then serialize_primitive k e
           else if isEnd e then some [0] else serialize_payload e) = some b)
    (fuel : Nat) (hfuel : payloadFuel e ≤ fuel) (rest : List Nat) :
    (if k = 0 then some (NTag.TAG_End, 1) else deserialize_payload fuel k (b ++ rest))
      = some (e, b.length) := by
  by_cases hk0 : k = 0
  · subst hk0
    obtain rfl : e = .TAG_End := tidOf_eq_zero htid
    rw [if_pos rfl]
    obtain rfl : b = [0] := by
      rw [if_neg (by simp [is_primitive])] at hb
      rw [if_pos (by simp [isEnd])] at hb
      exact (Option.some.injEq _ _ ▸ hb).symm
    rfl
  · rw [if_neg hk0]
    by_cases hp : is_primitive k = true
    · rw [if_pos hp] at hb
      rw [serialize_primitive_eq hp htid] at hb
      subst htid
      exact hRT hwf b hb fuel hfuel rest
    · rw [if_neg hp] at hb
      have hne : isEnd e = false := by
        cases hEnd : isEnd e
        · rfl
        · exfalso
          obtain rfl : e = .TAG_End := isEnd_iff.mp hEnd
          exact hk0 (htid.symm ▸ rfl)
      rw [hne] at hb
      simp only [Bool.false_eq_true, if_false] at hb
      subst htid
      exact hRT hwf b hb fuel hfuel rest

/-- The full element loop of `TAG_List`: decoding the encoder's element bytes
yields the original elements and consumes exactly those bytes. -/
theorem elems_rt {k : Nat} : ∀ {es : List NTag} {body : List Nat},
    (∀ e ∈ es, PayloadRT e) → wfElems k es = true →
    (if is_primitive k then serialize_primitives k es else serialize_list_elems es)
      = some body →
    ∀ fuel, elemsFuel es ≤ fuel → ∀ rest,
      deserialize_list_elems fuel k es.length (body ++ rest) = some (es, body.length) := by
  intro es
  induction es with
  | nil =>
    intro body hRT hwf h fuel hfuel rest
    obtain rfl : body = [] := by
      split at h
      · simpa [serialize_primitives] using h.symm
      · simpa [serialize_list_elems] using h.symm
    obtain ⟨f, rfl⟩ : ∃ f, fuel = f + 1 := ⟨fuel - 1, by simp [elemsFuel] at hfuel; omega⟩
    simp [deserialize_list_elems]
  | cons e es ih =>
    intro body hRT hwf h fuel hfuel rest
    rw [wfElems] at hwf
    simp only [Bool.and_eq_true, decide_eq_true_eq] at hwf
    obtain ⟨⟨htid, hwfe⟩, hwfes⟩ := hwf
    -- split the serialized bytes into the head element and the remainder
    have hsplit : ∃ eb body2,
        (if is_primitive k then serialize_primitive k e
         else if isEnd e then some [0] else serialize_payload e) = some eb ∧
        (if is_primitive k then serialize_primitives k es else serialize_list_elems es)
          = some body2 ∧
        body = eb ++ body2 := by
      split at h
      · rename_i hp
        rw [serialize_primitives] at h
        cases he : serialize_primitive k e with
        | none => rw [he] at h; simp at h
        | some eb =>
          rw [he] at h
          cases hes : serialize_primitives k es with
          | none => rw [hes] at h; simp at h
          | some body2 =>
            rw [hes] at h
            exact ⟨eb, body2, by rw [if_pos hp], by rw [if_pos hp],
              by simpa using h.symm⟩
      · rename_i hp
        rw [serialize_list_elems] at h
        cases he : (if isEnd e then some [0] else serialize_payload e) with
        | none => rw [he] at h; simp at h
        | some eb =>
          rw [he] at h
          cases hes : serialize_list_elems es with
          | none => rw [hes] at h; simp at h
          | some body2 =>
            rw [hes] at h
            exact ⟨eb, body2, by rw [if_neg hp], by rw [if_neg hp],
              by simpa using h.symm⟩
    obtain ⟨eb, body2, heb, hbody2, rfl⟩ := hsplit
    have hfe : elemsFuel (e :: es) = 1 + payloadFuel e + elemsFuel es := by
      rw [elemsFuel]
    obtain ⟨f, rfl⟩ : ∃ f, fuel = f + 1 := ⟨fuel - 1, by omega⟩
    have hstep := elem_step htid hwfe (hRT e (by simp)) heb f (by omega) (body2 ++ rest)
    rw [List.length_cons, deserialize_list_elems]
    rw [List.append_assoc, hstep]
    dsimp only
    rw [List.drop_left]
    rw [ih (fun x hx => hRT x (by simp [hx])) hwfes hbody2 f (by omega) rest]
    simp [List.length_append]

/-- Round-trip of one tagged+named tag (`Tag.serialize` / `Tag.deserialize`),
assuming the payload round-trip for the tag itself. -/
theorem tag_rt {nm : List Nat} {t : NTag} (hRT : PayloadRT t) (hwf : wfTag t = true)
    (hnm : isEnd t = true → nm = []) {tb : List Nat} (h : Tag.serialize nm t = some tb) :
    ∀ fuel, tagFuel t ≤ fuel → ∀ rest, Tag.deserialize fuel (tb ++ rest) = some (nm, t, tb.length) := by
  intro fuel hfuel rest
  obtain ⟨f, rfl⟩ : ∃ f, fuel = f + 1 := ⟨fuel - 1, by rw [tagFuel] at hfuel; omega⟩
  rw [Tag.serialize] at h
  by_cases hEnd : isEnd t = true
  · obtain rfl : t = .TAG_End := isEnd_iff.mp hEnd
    obtain rfl : nm = [] := hnm rfl
    obtain rfl : tb = [0] := by
      rw [if_pos hEnd] at h
      simpa using h.symm
    rw [List.cons_append, Tag.deserialize]
    rfl
  · rw [if_neg hEnd] at h
    cases hnb : serialize_name nm with
    | none => rw [hnb] at h; simp at h
    | some nb =>
      rw [hnb] at h
      cases hpb : serialize_payload t with
      | none => rw [hpb] at h; simp at h
      | some pb =>
        rw [hpb] at h
        obtain rfl : tb = tidOf t :: (nb ++ pb) := by simpa using h.symm
        have htid0 : tidOf t ≠ 0 := by
          intro h0
          exact hEnd (isEnd_iff.mpr (tidOf_eq_zero h0) ▸ rfl)
        rw [List.cons_append, Tag.deserialize]
        simp only [List.head?_cons]
        rw [if_neg htid0, if_pos (tidOf_le t)]
        have hdrop1 : ((tidOf t :: ((nb ++ pb) ++ rest)) : List Nat).drop 1 = nb ++ (pb ++ rest) := by
          simp [List.append_assoc]
        rw [hdrop1, deserialize_name_of_serialize hnb (pb ++ rest)]
        dsimp only
        have hdropn : ((tidOf t :: ((nb ++ pb) ++ rest)) : List Nat).drop (1 + nb.length)
            = pb ++ rest := by
          have : (1 : Nat) + nb.length = nb.length + 1 := by omega
          rw [this]
          simp only [List.drop_succ_cons]
          rw [List.append_assoc, List.drop_left]
        rw [hdropn]
        rw [hRT hwf pb hpb f (by rw [tagFuel] at hfuel; omega) rest]
        simp [List.length_append]
        omega

/-- The full child loop of `TAG_Compound`: decoding the encoder's child bytes
yields the original children (the terminating `TAG_End` included) and
consumes exactly those bytes. -/
theorem items_rt : ∀ {cs : List (List Nat × NTag)} {body : List Nat},
    (∀ p ∈ cs, PayloadRT p.2) → wfItems cs = true →
    cs.getLast? = some ([], .TAG_End) →
    cs.dropLast.all (fun p => !isEnd p.2) = true →
    serialize_compound_items cs = some body →
    ∀ fuel, itemsFuel cs ≤ fuel → ∀ rest,
      deserialize_compound_items fuel (body ++ rest) = some (cs, body.length) := by
  intro cs
  induction cs with
  | nil =>
    intro body hRT hwf hlast hmid h fuel hfuel rest
    simp at hlast
  | cons p cs ih =>
    intro body hRT hwf hlast hmid h fuel hfuel rest
    obtain ⟨nm, t⟩ := p
    rw [wfItems] at hwf
    simp only [Bool.and_eq_true] at hwf
    obtain ⟨⟨hwfnm, hwft⟩, hwfcs⟩ := hwf
    rw [serialize_compound_items] at h
    cases htb : Tag.serialize nm t with
    | none => rw [htb] at h; simp at h
    | some tb =>
      rw [htb] at h
      cases hbs : serialize_compound_items cs with
      | none => rw [hbs] at h; simp at h
      | some body2 =>
        rw [hbs] at h
        obtain rfl : body = tb ++ body2 := by simpa using h.symm
        rw [itemsFuel] at hfuel
        obtain ⟨f, rfl⟩ : ∃ f, fuel = f + 1 := ⟨fuel - 1, by omega⟩
        cases cs with
        | nil =>
          obtain ⟨rfl, rfl⟩ : nm = [] ∧ t = .TAG_End := by
            simp only [List.getLast?_singleton, Option.some.injEq, Prod.mk.injEq] at hlast
            exact ⟨hlast.1, hlast.2⟩
          obtain rfl : tb = [0] := by
            rw [Tag.serialize, if_pos (show isEnd NTag.TAG_End = true from rfl)] at htb
            simpa using htb.symm
          obtain rfl : body2 = [] := by
            simpa [serialize_compound_items] using hbs.symm
          have hstep := tag_rt (hRT (([], NTag.TAG_End)) (by simp)) hwft (fun _ => rfl) htb
            f (by rw [tagFuel]; dsimp only; omega) rest
          rw [deserialize_compound_items, List.append_nil, hstep]
          rfl
        | cons q cs2 =>
          have hlast2 : (q :: cs2).getLast? = some ([], .TAG_End) := by
            rw [List.getLast?_cons_cons] at hlast
            exact hlast
          have hmid2 : (q :: cs2).dropLast.all (fun p => !isEnd p.2) = true := by
            rw [List.dropLast_cons₂, List.all_cons] at hmid
            exact (Bool.and_eq_true _ _ ▸ hmid).2
          have htne : isEnd t = false := by
            rw [List.dropLast_cons₂, List.all_cons] at hmid
            have := (Bool.and_eq_true _ _ ▸ hmid).1
            cases hEnd : isEnd t
            · rfl
            · rw [hEnd] at this; simp at this
          have hstep := tag_rt (hRT ((nm, t)) (by simp)) hwft
            (fun hEnd => absurd hEnd (by simp [htne])) htb
            f (by rw [tagFuel]; dsimp only; omega) (body2 ++ rest)
          rw [deserialize_compound_items, List.append_assoc, hstep]
          dsimp only
          rw [htne]
          simp only [Bool.false_eq_true, if_false]
          rw [List.drop_left]
          rw [ih (fun x hx => hRT x (by simp [hx])) hwfcs hlast2 hmid2 hbs f (by omega) rest]
          simp [List.length_append]

theorem payloadFuel_pos (t : NTag) : 1 ≤ payloadFuel t := by
  cases t <;> simp [payloadFuel]

/-- Decoding the frame `element-kind ++ u32 count ++ element bytes` written by
`TAG_List.serialize_payload`. -/
theorem list_payload_decode {k : Nat} {es : List NTag} {body : List Nat}
    (hk12 : k ≤ 12) (hcount : es.length < 4294967296)
    (hRTs : ∀ e ∈ es, PayloadRT e) (hwfes : wfElems k es = true)
    (hbody : (if is_primitive k then serialize_primitives k es else serialize_list_elems es)
      = some body)
    (fuel : Nat) (hfuel : 1 + elemsFuel es ≤ fuel) (rest : List Nat) :
    deserialize_payload fuel 9 ((k :: (beBytes 4 es.length ++ body)) ++ rest)
      = some (.TAG_List (some k) es, (k :: (beBytes 4 es.length ++ body)).length) := by
  obtain ⟨f, rfl⟩ : ∃ f, fuel = f + 1 := ⟨fuel - 1, by omega⟩
  have h4 : (beBytes 4 es.length).length = 4 := beBytes_length _ _
  rw [List.cons_append, deserialize_payload]
  dsimp only
  simp only [List.head?_cons]
  rw [if_pos (by simp only [List.length_cons, List.length_append, h4]; omega)]
  rw [if_pos hk12]
  have hdrop1 : ((k :: ((beBytes 4 es.length ++ body) ++ rest)) : List Nat).drop 1
      = beBytes 4 es.length ++ (body ++ rest) := by
    simp [List.append_assoc]
  rw [hdrop1, List.take_left' h4, readBE_beBytes]
  have hp4 : 256 ^ 4 = 4294967296 := by norm_num
  rw [hp4, Nat.mod_eq_of_lt hcount]
  have hdrop5 : ((k :: ((beBytes 4 es.length ++ body) ++ rest)) : List Nat).drop 5
      = body ++ rest := by
    show ((k :: ((beBytes 4 es.length ++ body) ++ rest)) : List Nat).drop (4 + 1) = body ++ rest
    rw [Nat.add_comm 4 1, List.drop_add, List.drop_one]
    simp only [List.tail_cons]
    rw [List.append_assoc]
    exact List.drop_left' h4
  rw [hdrop5, elems_rt hRTs hwfes hbody f (by omega) rest]
  have hlens : (k :: (beBytes 4 es.length ++ body)).length = 5 + body.length := by
    simp only [List.length_cons, List.length_append, h4]
    omega
  rw [hlens]

/-- The master round-trip: every tag's payload bytes decode back to the tag. -/
theorem payloadRT_all : ∀ t, PayloadRT t := by
  intro t
  induction t using NTag.recAux with
  | hEnd =>
    intro hwf b hb
    rw [serialize_payload] at hb
    simp at hb
  | hByte i =>
    intro hwf b hb fuel hfuel rest
    rw [serialize_payload] at hb
    obtain ⟨hfb, hlen, _⟩ := toBytesSigned_roundtrip 1 i b hb
    obtain ⟨f, rfl⟩ : ∃ f, fuel = f + 1 :=
      ⟨fuel - 1, by have := payloadFuel_pos (NTag.TAG_Byte i); omega⟩
    simp only [tidOf]
    rw [deserialize_payload]
    try dsimp only
    rw [List.take_left' hlen, hfb, hlen]
  | hShort i =>
    intro hwf b hb fuel hfuel rest
    rw [serialize_payload] at hb
    obtain ⟨hfb, hlen, _⟩ := toBytesSigned_roundtrip 2 i b hb
    obtain ⟨f, rfl⟩ : ∃ f, fuel = f + 1 :=
      ⟨fuel - 1, by have := payloadFuel_pos (NTag.TAG_Short i); omega⟩
    simp only [tidOf]
    rw [deserialize_payload]
    try dsimp only
    rw [List.take_left' hlen, hfb, hlen]
  | hInt i =>
    intro hwf b hb fuel hfuel rest
    rw [serialize_payload] at hb
    obtain ⟨hfb, hlen, _⟩ := toBytesSigned_roundtrip 4 i b hb
    obtain ⟨f, rfl⟩ : ∃ f, fuel = f + 1 :=
      ⟨fuel - 1, by have := payloadFuel_pos (NTag.TAG_Int i); omega⟩
    simp only [tidOf]
    rw [deserialize_payload]
    try dsimp only
    rw [List.take_left' hlen, hfb, hlen]
  | hLong i =>
    intro hwf b hb fuel hfuel rest
    rw [serialize_payload] at hb
    obtain ⟨hfb, hlen, _⟩ := toBytesSigned_roundtrip 8 i b hb
    obtain ⟨f, rfl⟩ : ∃ f, fuel = f + 1 :=
      ⟨fuel - 1, by have := payloadFuel_pos (NTag.TAG_Long i); omega⟩
    simp only [tidOf]
    rw [deserialize_payload]
    try dsimp only
    rw [List.take_left' hlen, hfb, hlen]
  | hFloat bs =>
    intro hwf b hb fuel hfuel rest
    rw [serialize_payload] at hb
    split at hb
    · rename_i hlen4
      obtain rfl : b = bs := by simpa using hb.symm
      obtain ⟨f, rfl⟩ : ∃ f, fuel = f + 1 :=
        ⟨fuel - 1, by have := payloadFuel_pos (NTag.TAG_Float b); omega⟩
      simp only [tidOf]
      rw [deserialize_payload]
      try dsimp only
      rw [if_pos (by simp only [List.length_append]; omega)]
      rw [List.take_left' hlen4, hlen4]
    · simp at hb
  | hDouble bs =>
    intro hwf b hb fuel hfuel rest
    rw [serialize_payload] at hb
    split at hb
    · rename_i hlen8
      obtain rfl : b = bs := by simpa using hb.symm
      obtain ⟨f, rfl⟩ : ∃ f, fuel = f + 1 :=
        ⟨fuel - 1, by have := payloadFuel_pos (NTag.TAG_Double b); omega⟩
      simp only [tidOf]
      rw [deserialize_payload]
      try dsimp only
      rw [if_pos (by simp only [List.length_append]; omega)]
      rw [List.take_left' hlen8, hlen8]
    · simp at hb
  | hByteArray bs =>
    intro hwf b hb fuel hfuel rest
    rw [serialize_payload] at hb
    split at hb
    · rename_i hcount
      obtain rfl : b = beBytes 4 bs.length ++ bs := by simpa using hb.symm
      obtain ⟨f, rfl⟩ : ∃ f, fuel = f + 1 :=
        ⟨fuel - 1, by have := payloadFuel_pos (NTag.TAG_Byte_Array bs); omega⟩
      have h4 : (beBytes 4 bs.length).length = 4 := beBytes_length _ _
      simp only [tidOf]
      rw [deserialize_payload]
      try dsimp only
      rw [if_pos (by simp only [List.length_append, h4]; omega)]
      have htake4 : ((beBytes 4 bs.length ++ bs) ++ rest).take 4 = beBytes 4 bs.length := by
        rw [List.append_assoc]
        exact List.take_left' h4
      have hdrop4 : ((beBytes 4 bs.length ++ bs) ++ rest).drop 4 = bs ++ rest := by
        rw [List.append_assoc]
        exact List.drop_left' h4
      rw [htake4, hdrop4, readBE_beBytes]
      have hp4 : 256 ^ 4 = 4294967296 := by norm_num
      rw [hp4, Nat.mod_eq_of_lt hcount]
      try dsimp only
      rw [List.take_left]
      simp only [List.length_append, h4]
    · simp at hb
  | hString sv =>
    intro hwf b hb fuel hfuel rest
    rw [serialize_payload, TAG_String.serialize_primitive] at hb
    cases henc : utf8Encode sv with
    | none => rw [henc] at hb; simp at hb
    | some eb =>
      rw [henc] at hb
      dsimp only at hb
      split at hb
      · rename_i hlen
        obtain rfl : b = beBytes 2 eb.length ++ eb := by simpa using hb.symm
        obtain ⟨f, rfl⟩ : ∃ f, fuel = f + 1 :=
          ⟨fuel - 1, by have := payloadFuel_pos (NTag.TAG_String sv); omega⟩
        have h2 : (beBytes 2 eb.length).length = 2 := beBytes_length _ _
        simp only [tidOf]
        rw [deserialize_payload]
        try dsimp only
        rw [if_pos (by simp only [List.length_append, h2]; omega)]
        have htake2 : ((beBytes 2 eb.length ++ eb) ++ rest).take 2 = beBytes 2 eb.length := by
          rw [List.append_assoc]
          exact List.take_left' h2
        have hdrop2 : ((beBytes 2 eb.length ++ eb) ++ rest).drop 2 = eb ++ rest := by
          rw [List.append_assoc]
          exact List.drop_left' h2
        rw [htake2, hdrop2, readBE_beBytes]
        have hp2 : 256 ^ 2 = 65536 := by norm_num
        rw [hp2, Nat.mod_eq_of_lt hlen]
        by_cases hL : eb.length = 0
        · obtain rfl : eb = [] := List.eq_nil_of_length_eq_zero hL
          obtain rfl : sv = [] := utf8Encode_eq_nil henc
          rw [if_pos hL]
          simp [beBytes_length]
        · rw [if_neg hL]
          try dsimp only
          rw [List.take_left, utf8Encode_decode sv eb henc]
          simp only [List.length_append, h2]
      · simp at hb
  | hList o es ihm =>
    intro hwf b hb fuel hfuel rest
    cases o with
    | none => rw [wfTag] at hwf; simp at hwf
    | some k =>
      rw [wfTag] at hwf
      try dsimp only at hwf
      simp only [Bool.and_eq_true, decide_eq_true_eq] at hwf
      obtain ⟨⟨hk12, hcount⟩, hwfes⟩ := hwf
      rw [serialize_payload, TAG_List.serialize_payload] at hb
      try dsimp only at hb
      rw [TAG_List.serialize_body] at hb
      rw [if_pos ⟨by omega, hcount⟩] at hb
      rw [payloadFuel] at hfuel
      simp only [tidOf]
      by_cases hemp : es.isEmpty
      · obtain rfl : es = [] := List.isEmpty_iff.mp hemp
        rw [if_pos hemp] at hb
        obtain rfl : b = k :: beBytes 4 ([] : List NTag).length := by simpa using hb.symm
        have hbody : (if is_primitive k then serialize_primitives k ([] : List NTag)
            else serialize_list_elems []) = some [] := by
          split
          · simp [serialize_primitives]
          · simp [serialize_list_elems]
        have hdec := list_payload_decode hk12 hcount (fun e he => absurd he (by simp))
          (by rw [wfElems]) hbody fuel (by omega) rest
        simpa using hdec
      · rw [if_neg hemp] at hb
        split at hb
        · rename_i hp
          cases hsp : serialize_primitives k es with
          | none => rw [hsp] at hb; simp at hb
          | some body =>
            rw [hsp] at hb
            obtain rfl : b = k :: (beBytes 4 es.length ++ body) := by simpa using hb.symm
            have hbody : (if is_primitive k then serialize_primitives k es
                else serialize_list_elems es) = some body := by
              rw [if_pos hp]
              exact hsp
            exact list_payload_decode hk12 hcount ihm hwfes hbody fuel (by omega) rest
        · rename_i hp
          cases hsp : serialize_list_elems es with
          | none => rw [hsp] at hb; simp at hb
          | some body =>
            rw [hsp] at hb
            obtain rfl : b = k :: (beBytes 4 es.length ++ body) := by simpa using hb.symm
            have hbody : (if is_primitive k then serialize_primitives k es
                else serialize_list_elems es) = some body := by
              rw [if_neg hp]
              exact hsp
            exact list_payload_decode hk12 hcount ihm hwfes hbody fuel (by omega) rest
  | hCompound cs ihm =>
    intro hwf b hb fuel hfuel rest
    rw [wfTag] at hwf
    simp only [Bool.and_eq_true] at hwf
    obtain ⟨⟨hitems, hlastB⟩, hmid⟩ := hwf
    have hlast : cs.getLast? = some ([], .TAG_End) := by
      cases hgl : cs.getLast? with
      | none => rw [hgl] at hlastB; simp at hlastB
      | some p =>
        obtain ⟨nm, t⟩ := p
        rw [hgl] at hlastB
        cases t <;> simp at hlastB <;> simp [hlastB]
    rw [serialize_payload, TAG_Compound.serialize_payload, hlast] at hb
    try dsimp only at hb
    rw [payloadFuel] at hfuel
    obtain ⟨f, rfl⟩ : ∃ f, fuel = f + 1 := ⟨fuel - 1, by omega⟩
    simp only [tidOf]
    rw [deserialize_payload]
    try dsimp only
    rw [items_rt ihm hitems hlast hmid hb f (by omega) rest]
  | hIntArray xs =>
    intro hwf b hb fuel hfuel rest
    rw [serialize_payload] at hb
    obtain ⟨f, rfl⟩ : ∃ f, fuel = f + 1 :=
      ⟨fuel - 1, by have := payloadFuel_pos (NTag.TAG_Int_Array xs); omega⟩
    simp only [tidOf]
    rw [deserialize_payload]
    try dsimp only
    rw [numeric_array_rt (by norm_num) hb rest]
  | hLongArray xs =>
    intro hwf b hb fuel hfuel rest
    rw [serialize_payload] at hb
    obtain ⟨f, rfl⟩ : ∃ f, fuel = f + 1 :=
      ⟨fuel - 1, by have := payloadFuel_pos (NTag.TAG_Long_Array xs); omega⟩
    simp only [tidOf]
    rw [deserialize_payload]
    try dsimp only
    rw [numeric_array_rt (by norm_num) hb rest]

/-! ## Totality of the encoder on well-formed trees -/

theorem toBytesSigned_total {w : Nat} {i : Int}
    (h : -(256 : Int) ^ w ≤ 2 * i ∧ 2 * i < (256 : Int) ^ w) :
    toBytesSigned w i = some (beBytes w ((i % (256 : Int) ^ w).toNat)) := by
  rw [toBytesSigned, if_pos h]

theorem numeric_bodies_total (w : Nat) : ∀ xs : List Int,
    (∀ x ∈ xs, -(256 : Int) ^ w ≤ 2 * x ∧ 2 * x < (256 : Int) ^ w) →
    ∃ body, numeric_bodies w xs = some body := by
  intro xs
  induction xs with
  | nil => exact fun _ => ⟨[], rfl⟩
  | cons x xs2 ih2 =>
    intro hr
    obtain ⟨body2, hbody2⟩ := ih2 (fun y hy => hr y (by simp [hy]))
    obtain ⟨bx, hbx⟩ : ∃ bx, toBytesSigned w x = some bx := ⟨_, toBytesSigned_total (hr x (by simp))⟩
    exact ⟨bx ++ body2, by rw [numeric_bodies, hbx, hbody2]⟩

theorem serialize_name_total {nm : List Nat} (h : wfName nm = true) :
    ∃ nb, serialize_name nm = some nb := by
  rw [wfName] at h
  cases henc : utf8Encode nm with
  | none => rw [henc] at h; simp at h
  | some eb =>
    rw [henc] at h
    simp only [decide_eq_true_eq] at h
    exact ⟨_, by rw [serialize_name, henc]; dsimp only; rw [if_pos (by omega)]⟩

/-- Totality of the element loop of `TAG_List.serialize_payload`, given
per-element totality. -/
theorem elems_total {k : Nat} : ∀ {es : List NTag},
    (∀ e ∈ es, wfTag e = true → isEnd e = false → ∃ b, serialize_payload e = some b) →
    wfElems k es = true →
    ∃ body, (if is_primitive k then serialize_primitives k es else serialize_list_elems es)
      = some body := by
  intro es
  induction es with
  | nil =>
    exact fun _ _ => ⟨[], by split <;> simp [serialize_primitives, serialize_list_elems]⟩
  | cons e es2 ih2 =>
    intro htot hwfes
    rw [wfElems] at hwfes
    simp only [Bool.and_eq_true, decide_eq_true_eq] at hwfes
    obtain ⟨⟨htid, hwfe⟩, hwfes2⟩ := hwfes
    obtain ⟨body2, hbody2⟩ := ih2 (fun x hx => htot x (by simp [hx])) hwfes2
    have hstep : ∃ eb, (if is_primitive k then serialize_primitive k e
        else if isEnd e then some [0] else serialize_payload e) = some eb := by
      by_cases hp : is_primitive k = true
      · have hk0 : k ≠ 0 := by
          intro h0
          rw [h0] at hp
          simp [is_primitive] at hp
        have hne : isEnd e = false := by
          cases hEnd : isEnd e
          · rfl
          · exfalso
            obtain rfl : e = .TAG_End := isEnd_iff.mp hEnd
            simp only [tidOf] at htid
            exact hk0 htid.symm
        obtain ⟨eb, heb⟩ := htot e (by simp) hwfe hne
        exact ⟨eb, by rw [if_pos hp, serialize_primitive_eq hp htid]; exact heb⟩
      · by_cases hEnd : isEnd e = true
        · exact ⟨[0], by rw [if_neg hp, if_pos hEnd]⟩
        · obtain ⟨eb, heb⟩ := htot e (by simp) hwfe (by
            cases hx : isEnd e
            · rfl
            · exact absurd hx hEnd)
          exact ⟨eb, by rw [if_neg hp, if_neg hEnd]; exact heb⟩
    obtain ⟨eb, heb⟩ := hstep
    refine ⟨eb ++ body2, ?_⟩
    split
    · rename_i hp
      rw [if_pos hp] at heb hbody2
      rw [serialize_primitives, heb, hbody2]
    · rename_i hp
      rw [if_neg hp] at heb hbody2
      rw [serialize_list_elems]
      have heb2 : (if isEnd e = true then some [0] else serialize_payload e) = some eb := heb
      rw [heb2, hbody2]

/-- Totality of the child loop of `TAG_Compound.serialize_payload`, given
per-child totality. -/
theorem items_total : ∀ {cs : List (List Nat × NTag)},
    (∀ p ∈ cs, wfTag p.2 = true → isEnd p.2 = false → ∃ b, serialize_payload p.2 = some b) →
    wfItems cs = true →
    ∃ b, serialize_compound_items cs = some b := by
  intro cs
  induction cs with
  | nil => exact fun _ _ => ⟨[], by rw [serialize_compound_items]⟩
  | cons p cs2 ih2 =>
    intro htot hitems
    obtain ⟨nm, t⟩ := p
    rw [wfItems] at hitems
    simp only [Bool.and_eq_true] at hitems
    obtain ⟨⟨hwfnm, hwft⟩, hitems2⟩ := hitems
    obtain ⟨b2, hb2⟩ := ih2 (fun x hx => htot x (by simp [hx])) hitems2
    have htag : ∃ tb, Tag.serialize nm t = some tb := by
      by_cases hEnd : isEnd t = true
      · exact ⟨[0], by rw [Tag.serialize, if_pos hEnd]⟩
      · obtain ⟨nb, hnb⟩ := serialize_name_total hwfnm
        obtain ⟨pb, hpb⟩ := htot ((nm, t)) (by simp) hwft (by
          cases hx : isEnd t
          · rfl
          · exact absurd hx hEnd)
        exact ⟨_, by rw [Tag.serialize, if_neg hEnd, hnb, hpb]⟩
    obtain ⟨tb, htb⟩ := htag
    exact ⟨tb ++ b2, by rw [serialize_compound_items, htb, hb2]⟩

/-- A well-formed non-`TAG_End` tag always serializes. -/
theorem serialize_payload_total :
    ∀ t : NTag, wfTag t = true → isEnd t = false → ∃ b, serialize_payload t = some b := by
  intro t
  induction t using NTag.recAux with
  | hEnd => intro _ hne; simp [isEnd] at hne
  | hByte i =>
    intro hwf _
    rw [wfTag] at hwf
    simp only [decide_eq_true_eq] at hwf
    rw [serialize_payload]
    have hp : ((256 : Int) ^ 1) = 256 := by norm_num
    exact ⟨_, toBytesSigned_total (by simp only [hp]; omega)⟩
  | hShort i =>
    intro hwf _
    rw [wfTag] at hwf
    simp only [decide_eq_true_eq] at hwf
    rw [serialize_payload]
    have hp : ((256 : Int) ^ 2) = 65536 := by norm_num
    exact ⟨_, toBytesSigned_total (by simp only [hp]; omega)⟩
  | hInt i =>
    intro hwf _
    rw [wfTag] at hwf
    simp only [decide_eq_true_eq] at hwf
    rw [serialize_payload]
    have hp : ((256 : Int) ^ 4) = 4294967296 := by norm_num
    exact ⟨_, toBytesSigned_total (by simp only [hp]; omega)⟩
  | hLong i =>
    intro hwf _
    rw [wfTag] at hwf
    simp only [decide_eq_true_eq] at hwf
    rw [serialize_payload]
    have hp : ((256 : Int) ^ 8) = 18446744073709551616 := by norm_num
    exact ⟨_, toBytesSigned_total (by simp only [hp]; omega)⟩
  | hFloat bs =>
    intro hwf _
    rw [wfTag] at hwf
    simp only [Bool.and_eq_true, decide_eq_true_eq] at hwf
    rw [serialize_payload]
    exact ⟨bs, by rw [if_pos hwf.1]⟩
  | hDouble bs =>
    intro hwf _
    rw [wfTag] at hwf
    simp only [Bool.and_eq_true, decide_eq_true_eq] at hwf
    rw [serialize_payload]
    exact ⟨_, by rw [if_pos hwf.1]⟩
  | hByteArray bs =>
    intro hwf _
    rw [wfTag] at hwf
    simp only [Bool.and_eq_true, decide_eq_true_eq] at hwf
    rw [serialize_payload]
    exact ⟨_, by rw [if_pos hwf.1]⟩
  | hString sv =>
    intro hwf _
    rw [wfTag] at hwf
    obtain ⟨nb, hnb⟩ := serialize_name_total hwf
    rw [serialize_payload]
    rw [serialize_name] at hnb
    exact ⟨nb, by rw [TAG_String.serialize_primitive]; exact hnb⟩
  | hList o es ihm =>
    intro hwf _
    cases o with
    | none => rw [wfTag] at hwf; simp at hwf
    | some k =>
      rw [wfTag] at hwf
      try dsimp only at hwf
      simp only [Bool.and_eq_true, decide_eq_true_eq] at hwf
      obtain ⟨⟨hk12, hcount⟩, hwfes⟩ := hwf
      obtain ⟨body, hbody⟩ := elems_total ihm hwfes
      rw [serialize_payload, TAG_List.serialize_payload]
      try dsimp only
      rw [TAG_List.serialize_body, if_pos ⟨by omega, hcount⟩]
      by_cases hemp : es.isEmpty
      · rw [if_pos hemp]
        exact ⟨_, rfl⟩
      · rw [if_neg hemp]
        split at hbody
        · rw [if_pos (by assumption)]
          rw [hbody]
          exact ⟨_, rfl⟩
        · rw [if_neg (by assumption)]
          rw [hbody]
          exact ⟨_, rfl⟩
  | hCompound cs ihm =>
    intro hwf _
    rw [wfTag] at hwf
    simp only [Bool.and_eq_true] at hwf
    obtain ⟨⟨hitems, hlastB⟩, _⟩ := hwf
    have hlast : cs.getLast? = some ([], .TAG_End) := by
      cases hgl : cs.getLast? with
      | none => rw [hgl] at hlastB; simp at hlastB
      | some p =>
        obtain ⟨nm, t⟩ := p
        rw [hgl] at hlastB
        cases t <;> simp at hlastB <;> simp [hlastB]
    obtain ⟨b, hb⟩ := items_total ihm hitems
    rw [serialize_payload, TAG_Compound.serialize_payload, hlast]
    try dsimp only
    exact ⟨b, hb⟩
  | hIntArray xs =>
    intro hwf _
    rw [wfTag] at hwf
    simp only [Bool.and_eq_true, decide_eq_true_eq, List.all_eq_true] at hwf
    obtain ⟨hcount, hranges⟩ := hwf
    have hp : ((256 : Int) ^ 4) = 4294967296 := by norm_num
    obtain ⟨body, hbody⟩ := numeric_bodies_total 4 xs (fun x hx => by
      have := hranges x hx
      try simp only [decide_eq_true_eq] at this
      simp only [hp]
      omega)
    rw [serialize_payload, serialize_numeric_array, if_pos hcount, hbody]
    exact ⟨_, rfl⟩
  | hLongArray xs =>
    intro hwf _
    rw [wfTag] at hwf
    simp only [Bool.and_eq_true, decide_eq_true_eq, List.all_eq_true] at hwf
    obtain ⟨hcount, hranges⟩ := hwf
    have hp : ((256 : Int) ^ 8) = 18446744073709551616 := by norm_num
    obtain ⟨body, hbody⟩ := numeric_bodies_total 8 xs (fun x hx => by
      have := hranges x hx
      try simp only [decide_eq_true_eq] at this
      simp only [hp]
      omega)
    rw [serialize_payload, serialize_numeric_array, if_pos hcount, hbody]
    exact ⟨_, rfl⟩

/-! ## Suffix-independence of in-bounds decoding

If a decode succeeds and its reported width stays within the input, appending
extra bytes does not change the result.  (When the width overruns the input
the clamped `int.from_bytes` reads genuinely depend on the suffix; see the
counterexample for that claim.) -/

theorem deserialize_name_extend {d : List Nat} {nm : List Nat} {nw : Nat}
    (h : deserialize_name d = some (nm, nw)) (hw : nw ≤ d.length) (S : List Nat) :
    deserialize_name (d ++ S) = some (nm, nw) := by
  rw [deserialize_name] at h
  by_cases h2 : 2 ≤ d.length
  · rw [if_pos h2] at h
    try dsimp only at h
    have hsz : nw = 2 + readBE (d.take 2) := by
      cases hdec : utf8Decode ((d.drop 2).take (readBE (d.take 2))) with
      | none => rw [hdec] at h; simp at h
      | some name =>
        rw [hdec] at h
        simp only [Option.some.injEq, Prod.mk.injEq] at h
        exact h.2.symm
    rw [deserialize_name, if_pos (show 2 ≤ (d ++ S).length by
      simp only [List.length_append]; omega)]
    try dsimp only
    rw [List.take_append_of_le_length (by omega)]
    rw [List.drop_append_of_le_length (by omega)]
    rw [List.take_append_of_le_length (by simp only [List.length_drop]; omega)]
    exact h
  · rw [if_neg h2] at h
    simp at h

theorem numeric_payload_extend {w : Nat} {d : List Nat} {xs : List Int} {ww : Nat}
    (h : TagIterableNumeric.deserialize_payload w d = some (xs, ww)) (hw : ww ≤ d.length)
    (S : List Nat) :
    TagIterableNumeric.deserialize_payload w (d ++ S) = some (xs, ww) := by
  rw [TagIterableNumeric.deserialize_payload] at h
  by_cases h4 : 4 ≤ d.length
  · rw [if_pos h4] at h
    try dsimp only at h
    have hww : ww = 4 + w * readBE (d.take 4) := by
      split at h
      · simp only [Option.some.injEq, Prod.mk.injEq] at h
        exact h.2.symm
      · simp at h
    rw [TagIterableNumeric.deserialize_payload, if_pos (show 4 ≤ (d ++ S).length by
      simp only [List.length_append]; omega)]
    try dsimp only
    rw [List.take_append_of_le_length (by omega)]
    rw [List.drop_append_of_le_length (by omega)]
    rw [List.take_append_of_le_length (by simp only [List.length_drop]; omega)]
    exact h
  · rw [if_neg h4] at h
    simp at h

theorem decode_extend : ∀ fuel : Nat,
    (∀ data S nm t w, Tag.deserialize fuel data = some (nm, t, w) → w ≤ data.length →
        Tag.deserialize fuel (data ++ S) = some (nm, t, w)) ∧
    (∀ tid data S t w, deserialize_payload fuel tid data = some (t, w) → w ≤ data.length →
        deserialize_payload fuel tid (data ++ S) = some (t, w)) ∧
    (∀ etid n data S es w, deserialize_list_elems fuel etid n data = some (es, w) →
        w ≤ data.length → deserialize_list_elems fuel etid n (data ++ S) = some (es, w)) ∧
    (∀ data S items w, deserialize_compound_items fuel data = some (items, w) →
        w ≤ data.length → deserialize_compound_items fuel (data ++ S) = some (items, w)) := by
  intro fuel
  induction fuel with
  | zero =>
    refine ⟨?_, ?_, ?_, ?_⟩
    · intro data S nm t w h
      simp [Tag.deserialize] at h
    · intro tid data S t w h
      simp [deserialize_payload] at h
    · intro etid n data S es w h
      simp [deserialize_list_elems] at h
    · intro data S items w h
      simp [deserialize_compound_items] at h
  | succ f ih =>
    obtain ⟨ihTag, ihPayload, ihElems, ihItems⟩ := ih
    have hTag : ∀ data S nm t w, Tag.deserialize (f + 1) data = some (nm, t, w) →
        w ≤ data.length → Tag.deserialize (f + 1) (data ++ S) = some (nm, t, w) := by
      intro data S nm t w h hw
      rw [Tag.deserialize] at h
      cases data with
      | nil => simp at h
      | cons d0 dtl =>
        simp only [List.head?_cons] at h
        rw [List.cons_append, Tag.deserialize]
        simp only [List.head?_cons]
        by_cases h0 : d0 = 0
        · rw [if_pos h0] at h ⊢
          exact h
        · rw [if_neg h0] at h ⊢
          by_cases h12 : d0 ≤ 12
          · rw [if_pos h12] at h ⊢
            have hd1 : (d0 :: dtl : List Nat).drop 1 = dtl := rfl
            rw [hd1] at h
            cases hdn : deserialize_name dtl with
            | none => rw [hdn] at h; simp at h
            | some p =>
              obtain ⟨name, nw⟩ := p
              rw [hdn] at h
              try dsimp only at h
              cases hdp : deserialize_payload f d0 ((d0 :: dtl : List Nat).drop (1 + nw)) with
              | none => rw [hdp] at h; simp at h
              | some q =>
                obtain ⟨t2, pw⟩ := q
                rw [hdp] at h
                obtain ⟨rfl, rfl, rfl⟩ :
                    name = nm ∧ t2 = t ∧ 1 + nw + pw = w := by simpa using h
                have hdTl : (d0 :: dtl : List Nat).drop (1 + nw) = dtl.drop nw := by
                  rw [Nat.add_comm 1 nw]
                  exact List.drop_succ_cons
                rw [hdTl] at hdp
                simp only [List.length_cons] at hw
                have hd1' : (d0 :: (dtl ++ S) : List Nat).drop 1 = dtl ++ S := rfl
                rw [hd1']
                rw [deserialize_name_extend hdn (by omega) S]
                try dsimp only
                have hdTl' : (d0 :: (dtl ++ S) : List Nat).drop (1 + nw)
                    = dtl.drop nw ++ S := by
                  have : (d0 :: (dtl ++ S) : List Nat).drop (1 + nw) = (dtl ++ S).drop nw := by
                    rw [Nat.add_comm 1 nw]
                    exact List.drop_succ_cons
                  rw [this]
                  exact List.drop_append_of_le_length (by omega)
                rw [hdTl']
                rw [ihPayload d0 (dtl.drop nw) S t2 pw hdp
                  (by simp only [List.length_drop]; omega)]
          · rw [if_neg h12] at h
            simp at h
    have hPayload : ∀ tid data S t w, deserialize_payload (f + 1) tid data = some (t, w) →
        w ≤ data.length → deserialize_payload (f + 1) tid (data ++ S) = some (t, w) := by
      intro tid
      match tid with
      | 0 =>
        intro data S t w h hw
        simp [deserialize_payload] at h
      | 1 =>
        intro data S t w h hw
        rw [deserialize_payload] at h
        try dsimp only at h
        obtain ⟨rfl, rfl⟩ : NTag.TAG_Byte (fromBytesSigned (data.take 1)) = t ∧ 1 = w := by
          simpa using h
        rw [deserialize_payload]
        try dsimp only
        rw [List.take_append_of_le_length (by omega)]
      | 2 =>
        intro data S t w h hw
        rw [deserialize_payload] at h
        try dsimp only at h
        obtain ⟨rfl, rfl⟩ : NTag.TAG_Short (fromBytesSigned (data.take 2)) = t ∧ 2 = w := by
          simpa using h
        rw [deserialize_payload]
        try dsimp only
        rw [List.take_append_of_le_length (by omega)]
      | 3 =>
        intro data S t w h hw
        rw [deserialize_payload] at h
        try dsimp only at h
        obtain ⟨rfl, rfl⟩ : NTag.TAG_Int (fromBytesSigned (data.take 4)) = t ∧ 4 = w := by
          simpa using h
        rw [deserialize_payload]
        try dsimp only
        rw [List.take_append_of_le_length (by omega)]
      | 4 =>
        intro data S t w h hw
        rw [deserialize_payload] at h
        try dsimp only at h
        obtain ⟨rfl, rfl⟩ : NTag.TAG_Long (fromBytesSigned (data.take 8)) = t ∧ 8 = w := by
          simpa using h
        rw [deserialize_payload]
        try dsimp only
        rw [List.take_append_of_le_length (by omega)]
      | 5 =>
        intro data S t w h hw
        rw [deserialize_payload] at h
        try dsimp only at h
        split at h
        · rename_i hlen
          rw [deserialize_payload]
          try dsimp only
          rw [if_pos (show 4 ≤ (data ++ S).length by simp only [List.length_append]; omega)]
          rw [List.take_append_of_le_length (by omega)]
          exact h
        · simp at h
      | 6 =>
        intro data S t w h hw
        rw [deserialize_payload] at h
        try dsimp only at h
        split at h
        · rename_i hlen
          rw [deserialize_payload]
          try dsimp only
          rw [if_pos (show 8 ≤ (data ++ S).length by simp only [List.length_append]; omega)]
          rw [List.take_append_of_le_length (by omega)]
          exact h
        · simp at h
      | 7 =>
        intro data S t w h hw
        rw [deserialize_payload] at h
        try dsimp only at h
        split at h
        · rename_i hlen
          try dsimp only at h
          obtain ⟨rfl, rfl⟩ :
              NTag.TAG_Byte_Array ((data.drop 4).take (readBE (data.take 4))) = t ∧
                4 + readBE (data.take 4) = w := by simpa using h
          rw [deserialize_payload]
          try dsimp only
          rw [if_pos (show 4 ≤ (data ++ S).length by simp only [List.length_append]; omega)]
          try dsimp only
          rw [List.take_append_of_le_length (by omega)]
          rw [List.drop_append_of_le_length (by omega)]
          rw [List.take_append_of_le_length (by simp only [List.length_drop]; omega)]
        · simp at h
      | 8 =>
        intro data S t w h hw
        rw [deserialize_payload] at h
        try dsimp only at h
        split at h
        · rename_i hlen
          try dsimp only at h
          rw [deserialize_payload]
          try dsimp only
          rw [if_pos (show 2 ≤ (data ++ S).length by simp only [List.length_append]; omega)]
          try dsimp only
          rw [List.take_append_of_le_length (by omega)]
          by_cases hz : readBE (data.take 2) = 0
          · rw [if_pos hz] at h ⊢
            exact h
          · rw [if_neg hz] at h ⊢
            cases hdec : utf8Decode ((data.drop 2).take (readBE (data.take 2))) with
            | none => rw [hdec] at h; simp at h
            | some sv =>
              rw [hdec] at h
              obtain ⟨rfl, rfl⟩ :
                  NTag.TAG_String sv = t ∧ 2 + readBE (data.take 2) = w := by simpa using h
              rw [List.drop_append_of_le_length (by omega)]
              rw [List.take_append_of_le_length (by simp only [List.length_drop]; omega)]
              rw [hdec]
        · simp at h
      | 9 =>
        intro data S t w h hw
        rw [deserialize_payload] at h
        try dsimp only at h
        cases data with
        | nil => simp at h
        | cons d0 dtl =>
          simp only [List.head?_cons] at h
          rw [List.cons_append, deserialize_payload]
          try dsimp only
          simp only [List.head?_cons]
          split at h
          · rename_i hlen5
            simp only [List.length_cons] at hlen5 hw
            by_cases h12 : d0 ≤ 12
            · rw [if_pos h12] at h
              try dsimp only at h
              have hd1 : (d0 :: dtl : List Nat).drop 1 = dtl := rfl
              have hd5 : (d0 :: dtl : List Nat).drop 5 = dtl.drop 4 := rfl
              rw [hd1, hd5] at h
              cases hel : deserialize_list_elems f d0 (readBE (dtl.take 4)) (dtl.drop 4) with
              | none => rw [hel] at h; simp at h
              | some q =>
                obtain ⟨es, w2⟩ := q
                rw [hel] at h
                obtain ⟨rfl, rfl⟩ :
                    NTag.TAG_List (some d0) es = t ∧ 5 + w2 = w := by simpa using h
                rw [if_pos (show 5 ≤ (d0 :: (dtl ++ S) : List Nat).length by
                  simp only [List.length_cons, List.length_append]; omega)]
                rw [if_pos h12]
                try dsimp only
                have hd1' : (d0 :: (dtl ++ S) : List Nat).drop 1 = dtl ++ S := rfl
                have hd5' : (d0 :: (dtl ++ S) : List Nat).drop 5 = (dtl ++ S).drop 4 := rfl
                rw [hd1', hd5']
                rw [List.take_append_of_le_length (by omega)]
                rw [List.drop_append_of_le_length (by omega)]
                rw [ihElems d0 (readBE (dtl.take 4)) (dtl.drop 4) S es w2 hel
                  (by simp only [List.length_drop]; omega)]
            · rw [if_neg h12] at h
              simp at h
          · simp at h
      | 10 =>
        intro data S t w h hw
        rw [deserialize_payload] at h
        try dsimp only at h
        cases hit : deserialize_compound_items f data with
        | none => rw [hit] at h; simp at h
        | some q =>
          obtain ⟨items, w2⟩ := q
          rw [hit] at h
          obtain ⟨rfl, rfl⟩ : NTag.TAG_Compound items = t ∧ w2 = w := by simpa using h
          rw [deserialize_payload]
          try dsimp only
          rw [ihItems data S items w2 hit hw]
      | 11 =>
        intro data S t w h hw
        rw [deserialize_payload] at h
        try dsimp only at h
        cases hna : TagIterableNumeric.deserialize_payload 4 data with
        | none => rw [hna] at h; simp at h
        | some q =>
          obtain ⟨xs, w2⟩ := q
          rw [hna] at h
          obtain ⟨rfl, rfl⟩ : NTag.TAG_Int_Array xs = t ∧ w2 = w := by simpa using h
          rw [deserialize_payload]
          try dsimp only
          rw [numeric_payload_extend hna hw S]
      | 12 =>
        intro data S t w h hw
        rw [deserialize_payload] at h
        try dsimp only at h
        cases hna : TagIterableNumeric.deserialize_payload 8 data with
        | none => rw [hna] at h; simp at h
        | some q =>
          obtain ⟨xs, w2⟩ := q
          rw [hna] at h
          obtain ⟨rfl, rfl⟩ : NTag.TAG_Long_Array xs = t ∧ w2 = w := by simpa using h
          rw [deserialize_payload]
          try dsimp only
          rw [numeric_payload_extend hna hw S]
      | (n + 13) =>
        intro data S t w h hw
        simp [deserialize_payload] at h
    have hElems : ∀ etid n data S es w, deserialize_list_elems (f + 1) etid n data
        = some (es, w) → w ≤ data.length →
        deserialize_list_elems (f + 1) etid n (data ++ S) = some (es, w) := by
      intro etid n
      match n with
      | 0 =>
        intro data S es w h hw
        rw [deserialize_list_elems] at h
        rw [deserialize_list_elems]
        exact h
      | n + 1 =>
        intro data S es w h hw
        rw [deserialize_list_elems] at h
        rw [deserialize_list_elems]
        by_cases h0 : etid = 0
        · rw [if_pos h0] at h ⊢
          try dsimp only at h ⊢
          cases hrest : deserialize_list_elems f etid n (data.drop 1) with
          | none => rw [hrest] at h; simp at h
          | some q =>
            obtain ⟨es2, w2⟩ := q
            rw [hrest] at h
            obtain ⟨rfl, rfl⟩ : NTag.TAG_End :: es2 = es ∧ 1 + w2 = w := by simpa using h
            rw [List.drop_append_of_le_length (by omega)]
            rw [ihElems etid n (data.drop 1) S es2 w2 hrest
              (by simp only [List.length_drop]; omega)]
        · rw [if_neg h0] at h ⊢
          try dsimp only at h ⊢
          cases hstep : deserialize_payload f etid data with
          | none => rw [hstep] at h; simp at h
          | some q =>
            obtain ⟨e, w1⟩ := q
            rw [hstep] at h
            try dsimp only at h
            cases hrest : deserialize_list_elems f etid n (data.drop w1) with
            | none => rw [hrest] at h; simp at h
            | some q2 =>
              obtain ⟨es2, w2⟩ := q2
              rw [hrest] at h
              obtain ⟨rfl, rfl⟩ : e :: es2 = es ∧ w1 + w2 = w := by simpa using h
              rw [ihPayload etid data S e w1 hstep (by omega)]
              try dsimp only
              rw [List.drop_append_of_le_length (by omega)]
              rw [ihElems etid n (data.drop w1) S es2 w2 hrest
                (by simp only [List.length_drop]; omega)]
    refine ⟨hTag, hPayload, hElems, ?_⟩
    intro data S items w h hw
    rw [deserialize_compound_items] at h
    rw [deserialize_compound_items]
    cases hstep : Tag.deserialize f data with
    | none => rw [hstep] at h; simp at h
    | some q =>
      obtain ⟨name, t1, w1⟩ := q
      rw [hstep] at h
      try dsimp only at h
      by_cases hEnd : isEnd t1 = true
      · rw [if_pos hEnd] at h
        obtain ⟨rfl, rfl⟩ : [(name, t1)] = items ∧ w1 = w := by simpa using h
        rw [ihTag data S name t1 w1 hstep hw]
        try dsimp only
        rw [if_pos hEnd]
      · rw [if_neg hEnd] at h
        cases hrest : deserialize_compound_items f (data.drop w1) with
        | none => rw [hrest] at h; simp at h
        | some q2 =>
          obtain ⟨items2, w2⟩ := q2
          rw [hrest] at h
          obtain ⟨rfl, rfl⟩ : (name, t1) :: items2 = items ∧ w1 + w2 = w := by simpa using h
          rw [ihTag data S name t1 w1 hstep (by omega)]
          try dsimp only
          rw [if_neg hEnd]
          rw [List.drop_append_of_le_length (by omega)]
          rw [ihItems (data.drop w1) S items2 w2 hrest
            (by simp only [List.length_drop]; omega)]

/-! ## Document-level round trip and size positivity -/

theorem Tag_serialize_ne_nil {nm : List Nat} {t : NTag} {tb : List Nat}
    (h : Tag.serialize nm t = some tb) : tb ≠ [] := by
  rw [Tag.serialize] at h
  by_cases hEnd : isEnd t = true
  · rw [if_pos hEnd] at h
    obtain rfl : tb = [0] := by simpa using h.symm
    simp
  · rw [if_neg hEnd] at h
    cases hnb : serialize_name nm with
    | none => rw [hnb] at h; simp at h
    | some nb =>
      rw [hnb] at h
      try dsimp only at h
      cases hpb : serialize_payload t with
      | none => rw [hpb] at h; simp at h
      | some pb =>
        rw [hpb] at h
        obtain rfl : tb = tidOf t :: (nb ++ pb) := by simpa using h.symm
        simp

theorem serialize_total {D : List (List Nat × NTag)} (hwf : wfDoc D = true) :
    ∃ B, serialize D = some B := by
  rw [wfDoc] at hwf
  simp only [Bool.and_eq_true] at hwf
  obtain ⟨B, hB⟩ := items_total (fun p _ => serialize_payload_total p.2) hwf.1
  exact ⟨B, by rw [serialize]; exact hB⟩

theorem deserialize_of_serialize : ∀ {D : List (List Nat × NTag)},
    wfDoc D = true → ∀ {B : List Nat}, serialize D = some B →
    ∀ fuel, itemsFuel D ≤ fuel → deserialize fuel B = some D := by
  intro D
  induction D with
  | nil =>
    intro hwf B hB fuel hfuel
    obtain rfl : B = [] := by
      rw [serialize, serialize_compound_items] at hB
      simpa using hB.symm
    rw [deserialize]
    simp
  | cons p D2 ih =>
    intro hwf B hB fuel hfuel
    obtain ⟨nm, t⟩ := p
    have hwf2 := hwf
    rw [wfDoc] at hwf2
    simp only [Bool.and_eq_true, List.all_cons] at hwf2
    obtain ⟨hitems, hEndName, hEndNames2⟩ := hwf2
    rw [wfItems] at hitems
    simp only [Bool.and_eq_true] at hitems
    obtain ⟨⟨hwfnm, hwft⟩, hitems2⟩ := hitems
    have hwfD2 : wfDoc D2 = true := by
      rw [wfDoc]
      simp only [Bool.and_eq_true]
      exact ⟨hitems2, hEndNames2⟩
    rw [serialize, serialize_compound_items] at hB
    cases htb : Tag.serialize nm t with
    | none => rw [htb] at hB; simp at hB
    | some tb =>
      rw [htb] at hB
      try dsimp only at hB
      cases hbs : serialize_compound_items D2 with
      | none => rw [hbs] at hB; simp at hB
      | some B2 =>
        rw [hbs] at hB
        obtain rfl : B = tb ++ B2 := by simpa using hB.symm
        rw [itemsFuel] at hfuel
        have hne := Tag_serialize_ne_nil htb
        have hlen : 1 ≤ tb.length := by
          cases tb with
          | nil => exact absurd rfl hne
          | cons a l => simp
        have hnmEnd : isEnd t = true → nm = [] := by
          intro hE
          rw [hE] at hEndName
          simpa using hEndName
        rw [deserialize]
        rw [if_neg (by simp only [List.length_append]; omega)]
        rw [tag_rt (payloadRT_all t) hwft hnmEnd htb fuel (by rw [tagFuel]; omega) B2]
        try dsimp only
        rw [dif_pos hlen]
        rw [List.drop_left]
        rw [ih hwfD2 (by rw [serialize]; exact hbs) fuel (by omega)]

theorem Tag_deserialize_size_pos {fuel : Nat} {data nm : List Nat} {t : NTag} {w : Nat}
    (h : Tag.deserialize fuel data = some (nm, t, w)) : 1 ≤ w := by
  match fuel with
  | 0 => simp [Tag.deserialize] at h
  | f + 1 =>
    rw [Tag.deserialize] at h
    cases data with
    | nil => simp at h
    | cons d0 dtl =>
      simp only [List.head?_cons] at h
      by_cases h0 : d0 = 0
      · rw [if_pos h0] at h
        obtain ⟨-, -, rfl⟩ : [] = nm ∧ NTag.TAG_End = t ∧ 1 = w := by simpa using h
        exact Nat.le_refl 1
      · rw [if_neg h0] at h
        by_cases h12 : d0 ≤ 12
        · rw [if_pos h12] at h
          cases hdn : deserialize_name ((d0 :: dtl : List Nat).drop 1) with
          | none => rw [hdn] at h; simp at h
          | some pr =>
            obtain ⟨name, nw⟩ := pr
            rw [hdn] at h
            try dsimp only at h
            cases hdp : deserialize_payload f d0 ((d0 :: dtl : List Nat).drop (1 + nw)) with
            | none => rw [hdp] at h; simp at h
            | some q =>
              obtain ⟨t2, pw⟩ := q
              rw [hdp] at h
              obtain ⟨-, -, rfl⟩ : name = nm ∧ t2 = t ∧ 1 + nw + pw = w := by simpa using h
              omega
        · rw [if_neg h12] at h
          simp at h

/-- The span of an occupied cell is at least one sector. -/
theorem chunk_span_pos (c : Cell) : 1 ≤ chunk_span c := by
  rw [chunk_span, chunk_size]
  omega

theorem allocTable_length : ∀ (nxt : Nat) (cells : List (Option Cell)),
    (allocTable nxt cells).length = cells.length := by
  intro nxt cells
  induction cells generalizing nxt with
  | nil => rfl
  | cons oc rest ih => cases oc <;> simp [allocTable, ih]

/-- Every occupied cell records its `chunk_span`, at an offset no smaller
than the running `next_offset`. -/
theorem allocTable_occ_get : ∀ (cells : List (Option Cell)) (nxt i : Nat) (c : Cell),
    cells[i]? = some (some c) →
    ∃ off, (allocTable nxt cells)[i]? = some (off, chunk_span c) ∧ nxt ≤ off := by
  intro cells
  induction cells with
  | nil => intro nxt i c h; simp at h
  | cons oc rest ih =>
    intro nxt i c h
    match i with
    | 0 =>
      simp only [List.getElem?_cons_zero, Option.some.injEq] at h
      subst h
      exact ⟨nxt, by simp [allocTable], Nat.le_refl _⟩
    | i + 1 =>
      simp only [List.getElem?_cons_succ] at h
      cases oc with
      | none =>
        obtain ⟨off, hoff, hle⟩ := ih nxt i c h
        exact ⟨off, by simpa [allocTable] using hoff, hle⟩
      | some c0 =>
        obtain ⟨off, hoff, hle⟩ := ih (nxt + chunk_span c0) i c h
        exact ⟨off, by simpa [allocTable] using hoff, by omega⟩

/-- Offsets of occupied cells are strictly increasing in iteration order. -/
theorem allocTable_occ_mono : ∀ (cells : List (Option Cell)) (nxt i j : Nat)
    (ci cj : Cell) (oi si oj sj : Nat), i < j →
    cells[i]? = some (some ci) → cells[j]? = some (some cj) →
    (allocTable nxt cells)[i]? = some (oi, si) →
    (allocTable nxt cells)[j]? = some (oj, sj) → oi < oj := by
  intro cells
  induction cells with
  | nil =>
    intro nxt i j ci cj oi si oj sj hij hi hj htabi htabj
    simp at hi
  | cons oc rest ih =>
    intro nxt i j ci cj oi si oj sj hij hi hj htabi htabj
    match i, j with
    | i, 0 => exact absurd hij (by omega)
    | 0, j + 1 =>
      simp only [List.getElem?_cons_zero, Option.some.injEq] at hi
      subst hi
      simp only [allocTable, List.getElem?_cons_zero, Option.some.injEq,
        Prod.mk.injEq] at htabi
      obtain ⟨rfl, rfl⟩ := htabi
      simp only [List.getElem?_cons_succ] at hj
      simp only [allocTable, List.getElem?_cons_succ] at htabj
      obtain ⟨off, hoff, hle⟩ := allocTable_occ_get rest (nxt + chunk_span ci) j cj hj
      rw [hoff] at htabj
      obtain ⟨rfl, -⟩ : off = oj ∧ chunk_span cj = sj := by simpa using htabj
      have := chunk_span_pos ci
      omega
    | i + 1, j + 1 =>
      simp only [List.getElem?_cons_succ] at hi hj
      cases oc with
      | none =>
        simp only [allocTable, List.getElem?_cons_succ] at htabi htabj
        exact ih nxt i j ci cj oi si oj sj (by omega) hi hj htabi htabj
      | some c0 =>
        simp only [allocTable, List.getElem?_cons_succ] at htabi htabj
        exact ih (nxt + chunk_span c0) i j ci cj oi si oj sj (by omega) hi hj htabi htabj

/-- The first occupied cell is laid out at the running offset. -/
theorem allocTable_first_occ : ∀ (cells : List (Option Cell)) (nxt i : Nat) (c : Cell),
    (∀ j, j < i → cells[j]? = some none) → cells[i]? = some (some c) →
    (allocTable nxt cells)[i]? = some (nxt, chunk_span c) := by
  intro cells
  induction cells with
  | nil => intro nxt i c _ h; simp at h
  | cons oc rest ih =>
    intro nxt i c hbefore hi
    match i with
    | 0 =>
      simp only [List.getElem?_cons_zero, Option.some.injEq] at hi
      subst hi
      simp [allocTable]
    | i + 1 =>
      have h0 : oc = none := by
        have := hbefore 0 (by omega)
        simpa using this
      subst h0
      simp only [List.getElem?_cons_succ] at hi
      simp only [allocTable, List.getElem?_cons_succ]
      refine ih nxt i c (fun j hj => ?_) hi
      have := hbefore (j + 1) (by omega)
      simpa using this

/-- The frame loop succeeds when every occupied cell has a valid compression
discriminator and an in-range length field. -/
theorem chunkFrames_ok : ∀ cells : List (Option Cell),
    (∀ c : Cell, some c ∈ cells → (c.comp = 1 ∨ c.comp = 2) ∧ chunk_size c < 4294967296) →
    ∃ packed, chunkFrames cells = .ok packed := by
  intro cells
  induction cells with
  | nil => exact fun _ => ⟨[], rfl⟩
  | cons oc rest ih =>
    intro hok
    cases oc with
    | none =>
      obtain ⟨p, hp⟩ := ih (fun c hc => hok c (by simp [hc]))
      exact ⟨p, by rw [chunkFrames]; exact hp⟩
    | some c =>
      obtain ⟨hcomp, hsize⟩ := hok c (by simp)
      obtain ⟨p, hp⟩ := ih (fun c2 hc2 => hok c2 (by simp [hc2]))
      have hframe : chunkFrame c = .ok (beBytes 4 (chunk_size c) ++ [c.comp] ++ c.data ++
          List.replicate (chunk_span c * 4096 - chunk_size c) 0) := by
        rw [chunkFrame, if_pos hcomp, if_pos hsize]
      exact ⟨_, by rw [chunkFrames, hframe]; rw [hp]⟩

/-- When every offset and timestamp is in range, an over-255 span makes the
metadata loop fail with the span `pack("!B")` error. -/
theorem headerEntries_bad_span : ∀ ps : List ((Nat × Nat) × Nat),
    (∀ q ∈ ps, q.1.1 < 16777216 ∧ q.2 < 4294967296) →
    (∃ q ∈ ps, 255 < q.1.2) →
    headerEntries ps = .error .chunkTooLarge := by
  intro ps
  induction ps with
  | nil => intro _ hbad; simp at hbad
  | cons q rest ih =>
    intro hok hbad
    obtain ⟨⟨off, span⟩, ts⟩ := q
    obtain ⟨hoff, hts⟩ := hok ((off, span), ts) (List.mem_cons_self _ _)
    simp only at hoff hts
    by_cases hspan : 255 < span
    · have hme : metadataEntry (off, span) = .error .chunkTooLarge := by
        rw [metadataEntry, if_pos hoff, if_neg (by simp only; omega)]
      rw [headerEntries, hme]
    · obtain ⟨qb, hqb, hqspan⟩ := hbad
      have hqtail : qb ∈ rest := by
        rcases List.mem_cons.mp hqb with h1 | h2
        · exact absurd (h1 ▸ hqspan) (by simp only; omega)
        · exact h2
      have hme : metadataEntry (off, span) = .ok (beBytes 3 off ++ [span]) := by
        rw [metadataEntry, if_pos hoff, if_pos (by simp only; omega)]
      have hte : timestampEntry ts = .ok (beBytes 4 ts) := by
        rw [timestampEntry, if_pos hts]
      rw [headerEntries, hme]
      try dsimp only
      rw [hte]
      try dsimp only
      rw [ih (fun q hq => hok q (by simp [hq])) ⟨qb, hqtail, hqspan⟩]

/-- Indexwise membership in a zip. -/
theorem mem_zip_of_getElem? {α β : Type} : ∀ (A : List α) (B : List β) (i : Nat)
    (a : α) (b : β), A[i]? = some a → B[i]? = some b → (a, b) ∈ A.zip B := by
  intro A
  induction A with
  | nil => intro B i a b ha; simp at ha
  | cons a0 A2 ih =>
    intro B i a b ha hb
    cases B with
    | nil => simp at hb
    | cons b0 B2 =>
      match i with
      | 0 =>
        simp only [List.getElem?_cons_zero, Option.some.injEq] at ha hb
        subst ha
        subst hb
        simp [List.zip_cons_cons]
      | i + 1 =>
        simp only [List.getElem?_cons_succ] at ha hb
        simp only [List.zip_cons_cons, List.mem_cons]
        exact Or.inr (ih B2 i a b ha hb)

/-- A successful chunk read returns exactly the `chunk_size`-byte slice that
starts right after the compression byte (`region_data[co+5 : co+5+chunk_size]`,
clamped like every Python slice). -/
theorem deserialize_chunk_found :
    ∀ (rd : List Nat) (x z off sect ts cs comp : Nat) (d : List Nat),
    deserialize_chunk rd x z = some (.found off sect ts cs comp d) →
    d = (rd.drop (4096 * off + 5)).take cs ∧
    cs = readBE ((rd.drop (4096 * off)).take 4) ∧
    (4096 * off + 5 + cs ≤ rd.length → d.length = cs) := by
  intro rd x z off sect ts cs comp d h
  rw [deserialize_chunk] at h
  try dsimp only at h
  cases hsec : ((rd.drop (128 * z + 4 * x + 3)).take 1).head? with
  | none => rw [hsec] at h; simp at h
  | some sectors =>
    rw [hsec] at h
    try dsimp only at h
    split at h
    · exact absurd h (by simp)
    · split at h
      · split at h
        · cases hcb : ((rd.drop
              (4096 * readBE ((rd.drop (128 * z + 4 * x)).take 3) + 4)).take 1).head? with
          | none => rw [hcb] at h; simp at h
          | some cb =>
            rw [hcb] at h
            try dsimp only at h
            split at h
            · obtain ⟨rfl, rfl, rfl, rfl, rfl, rfl⟩ :
                  readBE ((rd.drop (128 * z + 4 * x)).take 3) = off ∧ sectors = sect ∧
                  readBE ((rd.drop (128 * z + 4 * x + 4096)).take 4) = ts ∧
                  readBE ((rd.drop (4096 * readBE ((rd.drop (128 * z + 4 * x)).take 3))).take 4)
                      = cs ∧
                  cb = comp ∧
                  (rd.drop (4096 * readBE ((rd.drop (128 * z + 4 * x)).take 3) + 5)).take
                      (readBE ((rd.drop
                        (4096 * readBE ((rd.drop (128 * z + 4 * x)).take 3))).take 4)) = d := by
                simpa using h
              refine ⟨rfl, rfl, fun hle => ?_⟩
              simp only [List.length_take, List.length_drop]
              omega
            · simp at h
        · simp at h
      · simp at h

/-- Shape of a decoded compound child list: it ends with the `TAG_End` that
stopped the loop, and no earlier child is a `TAG_End`. -/
theorem compound_items_shape : ∀ (fuel : Nat) (data : List Nat)
    (items : List (List Nat × NTag)) (w : Nat),
    deserialize_compound_items fuel data = some (items, w) →
    (∃ q, items.getLast? = some q ∧ isEnd q.2 = true) ∧
    items.dropLast.all (fun p => !isEnd p.2) = true := by
  intro fuel
  induction fuel with
  | zero => intro data items w h; simp [deserialize_compound_items] at h
  | succ f ih =>
    intro data items w h
    rw [deserialize_compound_items] at h
    cases hstep : Tag.deserialize f data with
    | none => rw [hstep] at h; simp at h
    | some q =>
      obtain ⟨name, t, w1⟩ := q
      rw [hstep] at h
      try dsimp only at h
      by_cases hEnd : isEnd t = true
      · rw [if_pos hEnd] at h
        obtain ⟨rfl, rfl⟩ : [(name, t)] = items ∧ w1 = w := by simpa using h
        exact ⟨⟨(name, t), by simp, hEnd⟩, by simp⟩
      · rw [if_neg hEnd] at h
        cases hrest : deserialize_compound_items f (data.drop w1) with
        | none => rw [hrest] at h; simp at h
        | some q2 =>
          obtain ⟨items2, w2⟩ := q2
          rw [hrest] at h
          obtain ⟨rfl, rfl⟩ : (name, t) :: items2 = items ∧ w1 + w2 = w := by simpa using h
          obtain ⟨⟨qlast, hql, hqEnd⟩, hmid⟩ := ih (data.drop w1) items2 w2 hrest
          cases items2 with
          | nil => simp at hql
          | cons b l =>
            refine ⟨⟨qlast, ?_, hqEnd⟩, ?_⟩
            · rw [List.getLast?_cons_cons]
              exact hql
            · have hdl : ((name, t) :: b :: l).dropLast = (name, t) :: (b :: l).dropLast :=
                rfl
              rw [hdl, List.all_cons, hmid]
              simp [hEnd]

/-- `serialize_compound_items` emits each child's `tag.serialize()` bytes in
order. -/
theorem items_encode_order : ∀ (cs : List (List Nat × NTag)) (b : List Nat),
    serialize_compound_items cs = some b →
    ∃ bs, List.Forall₂ (fun p eb => Tag.serialize p.1 p.2 = some eb) cs bs ∧
      b = bs.flatten := by
  intro cs
  induction cs with
  | nil =>
    intro b h
    obtain rfl : b = [] := by
      rw [serialize_compound_items] at h
      simpa using h.symm
    exact ⟨[], List.Forall₂.nil, by simp⟩
  | cons p rest ih =>
    intro b h
    obtain ⟨nm, t⟩ := p
    rw [serialize_compound_items] at h
    cases htb : Tag.serialize nm t with
    | none => rw [htb] at h; simp at h
    | some tb =>
      rw [htb] at h
      try dsimp only at h
      cases hbs : serialize_compound_items rest with
      | none => rw [hbs] at h; simp at h
      | some b2 =>
        rw [hbs] at h
        obtain rfl : b = tb ++ b2 := by simpa using h.symm
        obtain ⟨bs, hfa, rfl⟩ := ih b2 hbs
        exact ⟨tb :: bs, List.Forall₂.cons htb hfa, by simp⟩

/-- `TAG_Compound.serialize_payload` fails when the last child is not a
`TAG_End` (the `assert isinstance(self.payload[-1], TAG_End)`). -/
theorem compound_serialize_last_not_end : ∀ (cs : List (List Nat × NTag))
    (p : List Nat × NTag), cs.getLast? = some p → isEnd p.2 = false →
    TAG_Compound.serialize_payload cs = none := by
  intro cs p hlast hEnd
  rw [TAG_Compound.serialize_payload, hlast]
  try dsimp only
  obtain ⟨pn, pt⟩ := p
  cases pt <;> first | rfl | simp [isEnd] at hEnd

/-! ## The claims -/

/-- C1: decode∘encode is the identity on encoder-produced byte strings: a
serialized well-formed document decodes back (with enough fuel) to a tree
that re-encodes to exactly the same bytes; and the S2 vector
`03 00 03 "foo" 00 00 00 2A` decodes to the named `TAG_Int 42` root and
re-encodes byte-for-byte. -/
theorem nbt_decode_encode_roundtrip :
    (∀ (D : List (List Nat × NTag)) (B : List Nat) (fuel : Nat),
        wfDoc D = true → serialize D = some B → itemsFuel D ≤ fuel →
        ∃ D2, deserialize fuel B = some D2 ∧ serialize D2 = some B) ∧
    deserialize 2 [3, 0, 3, 102, 111, 111, 0, 0, 0, 42]
        = some [([102, 111, 111], NTag.TAG_Int 42)] ∧
    serialize [([102, 111, 111], NTag.TAG_Int 42)]
        = some [3, 0, 3, 102, 111, 111, 0, 0, 0, 42] := by
  refine ⟨fun D B fuel hwf hser hfuel =>
    ⟨D, deserialize_of_serialize hwf hser fuel hfuel, hser⟩, ?_, ?_⟩
  · simp [deserialize, Tag.deserialize, deserialize_payload, deserialize_name,
      readBE, utf8Decode, fromBytesSigned]
  · simp [serialize, serialize_compound_items, Tag.serialize, serialize_name,
      serialize_payload, utf8Encode, utf8EncodeChar, List.mapM, List.mapM.loop,
      toBytesSigned, beBytes, isEnd, tidOf]

theorem nbt_decode_encode_roundtrip_witness :
    ∃ D2, deserialize 4 [3, 0, 3, 102, 111, 111, 0, 0, 0, 42] = some D2 ∧
      serialize D2 = some [3, 0, 3, 102, 111, 111, 0, 0, 0, 42] :=
  nbt_decode_encode_roundtrip.1 [([102, 111, 111], NTag.TAG_Int 42)] _ 4
    (by simp [wfDoc, wfItems, wfTag, wfName, utf8Encode, utf8EncodeChar,
      List.mapM, List.mapM.loop, isEnd])
    (by simp [serialize, serialize_compound_items, Tag.serialize, serialize_name,
      serialize_payload, utf8Encode, utf8EncodeChar, List.mapM, List.mapM.loop,
      toBytesSigned, beBytes, isEnd, tidOf])
    (by simp [itemsFuel, payloadFuel])

/-- C2: encode∘decode is the identity on well-formed trees: every
well-formed document serializes, and decoding the bytes (with enough fuel)
returns the document itself — same kinds, names, payloads, list element
kinds and child order, since equality of `NTag` documents is structural. -/
theorem nbt_encode_decode_identity :
    ∀ D : List (List Nat × NTag), wfDoc D = true →
    ∃ B, serialize D = some B ∧
      ∀ fuel, itemsFuel D ≤ fuel → deserialize fuel B = some D := by
  intro D hwf
  obtain ⟨B, hB⟩ := serialize_total hwf
  exact ⟨B, hB, fun fuel hf => deserialize_of_serialize hwf hB fuel hf⟩

theorem nbt_encode_decode_identity_witness :
    ∃ B, serialize [([97], NTag.TAG_Byte (-1))] = some B ∧
      ∀ fuel, itemsFuel [([97], NTag.TAG_Byte (-1))] ≤ fuel →
        deserialize fuel B = some [([97], NTag.TAG_Byte (-1))] :=
  nbt_encode_decode_identity [([97], NTag.TAG_Byte (-1))]
    (by simp [wfDoc, wfItems, wfTag, wfName, utf8Encode, utf8EncodeChar,
      List.mapM, List.mapM.loop, isEnd])

/-- C3 (code bug): the chunk length field written by the encoder is
`5 + len(compressed)` — not the claimed `1 + len(compressed)` — and the
decoder reads `chunk_size` (not `chunk_size − 1`) compressed bytes after the
compression byte; at a 7-byte compressed payload the field holds 12, not 8. -/
theorem region_chunk_length_field :
    (∀ (c : Cell) (frame : List Nat), chunkFrame c = .ok frame →
        frame.take 4 = beBytes 4 (5 + c.data.length)) ∧
    (∀ (rd : List Nat) (x z off sect ts cs comp : Nat) (d : List Nat),
        deserialize_chunk rd x z = some (.found off sect ts cs comp d) →
        4096 * off + 5 + cs ≤ rd.length → d.length = cs) ∧
    readBE (beBytes 4 (5 + c3cell.data.length)) = 12 ∧
    ¬ (12 = 1 + c3cell.data.length) := by
  refine ⟨?_, ?_, by rfl, by decide⟩
  · intro c frame h
    rw [chunkFrame] at h
    split at h
    · split at h
      · obtain rfl : beBytes 4 (chunk_size c) ++ [c.comp] ++ c.data ++
            List.replicate (chunk_span c * 4096 - chunk_size c) 0 = frame := by
          simpa using h
        rw [List.append_assoc, List.append_assoc]
        rw [List.take_left' (beBytes_length 4 (chunk_size c))]
        rw [chunk_size]
      · simp at h
    · simp at h
  · intro rd x z off sect ts cs comp d h
    exact (deserialize_chunk_found rd x z off sect ts cs comp d h).2.2

theorem region_chunk_length_field_witness :
    (beBytes 4 12 ++ [1] ++ [10, 0, 0, 0, 0, 3, 0] ++ List.replicate 4084 0).take 4
      = beBytes 4 (5 + c3cell.data.length) :=
  region_chunk_length_field.1 c3cell
    (beBytes 4 12 ++ [1] ++ [10, 0, 0, 0, 0, 3, 0] ++ List.replicate 4084 0) rfl

/-- C4: sector arithmetic of a fresh encode: the recorded span is exactly
the ceiling of `(5 + compressed_payload_len) / 4096`; the first occupied
cell is laid out at sector 2; and occupied offsets strictly increase in
z-major iteration order. -/
theorem region_sector_allocation :
    (∀ c : Cell, chunk_size c ≤ 4096 * chunk_span c ∧
        4096 * chunk_span c < chunk_size c + 4096 ∧
        chunk_size c = 5 + c.data.length) ∧
    (∀ (cells : List (Option Cell)) (i : Nat) (c : Cell),
        (∀ j, j < i → cells[j]? = some none) → cells[i]? = some (some c) →
        (allocTable 2 cells)[i]? = some (2, chunk_span c)) ∧
    (∀ (cells : List (Option Cell)) (i j : Nat) (ci cj : Cell) (oi si oj sj : Nat),
        i < j → cells[i]? = some (some ci) → cells[j]? = some (some cj) →
        (allocTable 2 cells)[i]? = some (oi, si) →
        (allocTable 2 cells)[j]? = some (oj, sj) → oi < oj) := by
  refine ⟨fun c => ⟨?_, ?_, rfl⟩,
    fun cells i c h1 h2 => allocTable_first_occ cells 2 i c h1 h2,
    fun cells i j ci cj oi si oj sj hij hi hj ti tj =>
      allocTable_occ_mono cells 2 i j ci cj oi si oj sj hij hi hj ti tj⟩
  · rw [chunk_span, chunk_size]
    omega
  · rw [chunk_span, chunk_size]
    omega

theorem region_sector_allocation_witness : (2 : Nat) < 3 :=
  region_sector_allocation.2.2 [none, some ⟨1, [7]⟩, some ⟨2, []⟩] 1 2
    ⟨1, [7]⟩ ⟨2, []⟩ 2 1 3 1 (by decide) (by rfl) (by rfl) (by rfl) (by rfl)

/-- C5: a `TAG_List` with a declared element kind and empty payload encodes
as exactly the kind byte followed by a zero u32 count, and that payload
decodes back to an empty list recording the declared kind; for element kind
String (8) the bytes are `08 00 00 00 00`. -/
theorem list_empty_payload_kind :
    ∀ k : Nat, k ≤ 12 →
    serialize_payload (NTag.TAG_List (some k) []) = some (k :: beBytes 4 0) ∧
    (∀ fuel, 2 ≤ fuel →
      deserialize_payload fuel 9 (k :: beBytes 4 0)
        = some (NTag.TAG_List (some k) [], 5)) ∧
    serialize_payload (NTag.TAG_List (some 8) []) = some [8, 0, 0, 0, 0] := by
  intro k hk
  refine ⟨?_, fun fuel hfuel => ?_, ?_⟩
  · rw [serialize_payload]
    try dsimp only
    rw [TAG_List.serialize_payload]
    try dsimp only
    rw [TAG_List.serialize_body]
    rw [if_pos ⟨by omega, by norm_num⟩]
    rfl
  · obtain ⟨f, rfl⟩ : ∃ f, fuel = f + 2 := ⟨fuel - 2, by omega⟩
    have hbe : beBytes 4 0 = [0, 0, 0, 0] := rfl
    rw [hbe]
    rw [deserialize_payload]
    try dsimp only
    simp only [List.head?_cons]
    rw [if_pos (by simp)]
    rw [if_pos hk]
    try dsimp only
    have h1 : ((k :: [0, 0, 0, 0] : List Nat).drop 1).take 4 = [0, 0, 0, 0] := rfl
    rw [h1]
    have h2 : readBE [0, 0, 0, 0] = 0 := rfl
    rw [h2]
    have h3 : (k :: [0, 0, 0, 0] : List Nat).drop 5 = [] := rfl
    rw [h3]
    have h4 : deserialize_list_elems (f + 1) k 0 [] = some ([], 0) := by
      rw [deserialize_list_elems]
    rw [h4]
  · simp [serialize_payload, TAG_List.serialize_payload, TAG_List.serialize_body,
      beBytes]

theorem list_empty_payload_kind_witness :
    deserialize_payload 2 9 ((8 : Nat) :: beBytes 4 0)
      = some (NTag.TAG_List (some 8) [], 5) :=
  (list_empty_payload_kind 8 (by decide)).2.1 2 (by decide)

/-- C6: a decoded compound child list always ends in the `TAG_End` that
stopped the per-child loop, with no interior `TAG_End`; the encoder emits
each child's framing in order and fails when the last child is not a
`TAG_End`. -/
theorem compound_frame_end_terminated :
    (∀ (fuel : Nat) (data : List Nat) (items : List (List Nat × NTag)) (w : Nat),
        deserialize_compound_items fuel data = some (items, w) →
        (∃ q, items.getLast? = some q ∧ isEnd q.2 = true) ∧
        items.dropLast.all (fun p => !isEnd p.2) = true) ∧
    (∀ (cs : List (List Nat × NTag)) (b : List Nat),
        serialize_compound_items cs = some b →
        ∃ bs, List.Forall₂ (fun p eb => Tag.serialize p.1 p.2 = some eb) cs bs ∧
          b = bs.flatten) ∧
    (∀ (cs : List (List Nat × NTag)) (p : List Nat × NTag),
        cs.getLast? = some p → isEnd p.2 = false →
        TAG_Compound.serialize_payload cs = none) :=
  ⟨compound_items_shape, items_encode_order, compound_serialize_last_not_end⟩

theorem compound_frame_end_terminated_witness :
    (∃ q, ([([], NTag.TAG_End)] : List (List Nat × NTag)).getLast? = some q ∧
      isEnd q.2 = true) ∧
    ([([], NTag.TAG_End)] : List (List Nat × NTag)).dropLast.all
      (fun p => !isEnd p.2) = true :=
  compound_frame_end_terminated.1 2 [0] [([], NTag.TAG_End)] 1
    (by simp [deserialize_compound_items, Tag.deserialize, isEnd])

/-- C7: a fresh encode of a region in which some occupied cell spans more
than 255 sectors fails with the write-side span error (`pack("!B", span)`),
provided no earlier write fails for an unrelated reason. -/
theorem region_chunk_too_large :
    ∀ (cells : List (Option Cell)) (tss : List Nat),
    tss.length = cells.length →
    (∀ c : Cell, some c ∈ cells →
      (c.comp = 1 ∨ c.comp = 2) ∧ chunk_size c < 4294967296) →
    (∀ e ∈ allocTable 2 cells, e.1 < 16777216) →
    (∀ ts ∈ tss, ts < 4294967296) →
    (∃ (i : Nat) (c : Cell), cells[i]? = some (some c) ∧ 255 < chunk_span c) →
    serializeRegion cells tss = .error .chunkTooLarge := by
  intro cells tss hlen hcomp hoff hts hbad
  obtain ⟨packed, hpacked⟩ := chunkFrames_ok cells hcomp
  rw [serializeRegion, hpacked]
  try dsimp only
  obtain ⟨i, c, hc, hspan⟩ := hbad
  obtain ⟨off, htab, -⟩ := allocTable_occ_get cells 2 i c hc
  have hic : i < cells.length := by
    rcases Nat.lt_or_ge i cells.length with hgood | hge
    · exact hgood
    · rw [List.getElem?_eq_none hge] at hc
      exact absurd hc (by simp)
  have hit : i < tss.length := by omega
  obtain ⟨ts, htsi⟩ : ∃ ts, tss[i]? = some ts :=
    ⟨tss[i], List.getElem?_eq_getElem hit⟩
  have hmem : ((off, chunk_span c), ts) ∈ (allocTable 2 cells).zip tss :=
    mem_zip_of_getElem? (allocTable 2 cells) tss i (off, chunk_span c) ts htab htsi
  have hbound : ∀ q ∈ (allocTable 2 cells).zip tss,
      q.1.1 < 16777216 ∧ q.2 < 4294967296 := by
    intro q hq
    obtain ⟨a, b⟩ := q
    obtain ⟨h1, h2⟩ := List.of_mem_zip hq
    exact ⟨hoff a h1, hts b h2⟩
  rw [headerEntries_bad_span ((allocTable 2 cells).zip tss) hbound
    ⟨((off, chunk_span c), ts), hmem, by simpa using hspan⟩]

theorem region_chunk_too_large_witness :
    serializeRegion [some ⟨2, List.replicate 1044476 0⟩] [0]
      = .error .chunkTooLarge := by
  have hL : (⟨2, List.replicate 1044476 0⟩ : Cell).data.length = 1044476 :=
    List.length_replicate _ _
  refine region_chunk_too_large [some ⟨2, List.replicate 1044476 0⟩] [0] rfl ?_ ?_ ?_ ?_
  · intro c hc
    have hceq : c = ⟨2, List.replicate 1044476 0⟩ :=
      Option.some.inj (List.mem_singleton.mp hc)
    subst hceq
    refine ⟨Or.inr rfl, ?_⟩
    rw [chunk_size, hL]
    norm_num
  · intro e he
    have htab : allocTable 2 [some (⟨2, List.replicate 1044476 0⟩ : Cell)]
        = [(2, chunk_span ⟨2, List.replicate 1044476 0⟩)] := rfl
    rw [htab] at he
    have he2 : e = (2, chunk_span ⟨2, List.replicate 1044476 0⟩) :=
      List.mem_singleton.mp he
    subst he2
    show (2 : Nat) < 16777216
    norm_num
  · intro ts hts
    have h0 : ts = 0 := List.mem_singleton.mp hts
    subst h0
    norm_num
  · refine ⟨0, ⟨2, List.replicate 1044476 0⟩, rfl, ?_⟩
    rw [chunk_span, chunk_size, hL]
    norm_num

/-- C8: writing a string — a tag name or a `TAG_String` payload — fails
exactly when its UTF-8 encoding exceeds 65535 bytes; otherwise it emits the
big-endian u16 length prefix followed by the encoded bytes. -/
theorem string_length_prefix_limit :
    ∀ (s eb : List Nat), utf8Encode s = some eb →
    ((serialize_name s = none ↔ 65535 < eb.length) ∧
     (eb.length ≤ 65535 → serialize_name s = some (beBytes 2 eb.length ++ eb)) ∧
     (TAG_String.serialize_primitive s = none ↔ 65535 < eb.length) ∧
     (eb.length ≤ 65535 → TAG_String.serialize_primitive s
        = some (beBytes 2 eb.length ++ eb))) := by
  intro s eb henc
  have hname : serialize_name s
      = (if eb.length < 65536 then some (beBytes 2 eb.length ++ eb) else none) := by
    rw [serialize_name, henc]
  have hprim : TAG_String.serialize_primitive s
      = (if eb.length < 65536 then some (beBytes 2 eb.length ++ eb) else none) := by
    rw [TAG_String.serialize_primitive, henc]
  refine ⟨?_, fun hle => by rw [hname, if_pos (by omega)],
    ?_, fun hle => by rw [hprim, if_pos (by omega)]⟩
  · rw [hname]
    split <;> rename_i hsp <;> simp <;> omega
  · rw [hprim]
    split <;> rename_i hsp <;> simp <;> omega

theorem string_length_prefix_limit_witness :
    (serialize_name [104, 105] = none ↔ 65535 < ([104, 105] : List Nat).length) ∧
    (([104, 105] : List Nat).length ≤ 65535 →
      serialize_name [104, 105]
        = some (beBytes 2 ([104, 105] : List Nat).length ++ [104, 105])) ∧
    (TAG_String.serialize_primitive [104, 105] = none ↔
      65535 < ([104, 105] : List Nat).length) ∧
    (([104, 105] : List Nat).length ≤ 65535 →
      TAG_String.serialize_primitive [104, 105]
        = some (beBytes 2 ([104, 105] : List Nat).length ++ [104, 105])) :=
  string_length_prefix_limit [104, 105] [104, 105]
    (by simp [utf8Encode, utf8EncodeChar, List.mapM, List.mapM.loop])

/-- C9: every successfully decoded tag reports a size of at least one byte,
so the remaining input of the top-level loop strictly shrinks on every
iteration (and the fuel-indexed decoder is total by construction). -/
theorem deserialize_progress :
    ∀ (fuel : Nat) (data nm : List Nat) (t : NTag) (w : Nat),
    Tag.deserialize fuel data = some (nm, t, w) →
    1 ≤ w ∧ (data ≠ [] → (data.drop w).length < data.length) := by
  intro fuel data nm t w h
  have h1 := Tag_deserialize_size_pos h
  refine ⟨h1, fun hne => ?_⟩
  have h2 : 0 < data.length := List.length_pos.mpr hne
  simp only [List.length_drop]
  omega

theorem deserialize_progress_witness :
    1 ≤ 4 ∧ (([1, 0, 0, 42] : List Nat) ≠ [] →
      (([1, 0, 0, 42] : List Nat).drop 4).length < ([1, 0, 0, 42] : List Nat).length) :=
  deserialize_progress 2 [1, 0, 0, 42] [] (NTag.TAG_Byte 42) 4
    (by simp [Tag.deserialize, deserialize_payload, deserialize_name, readBE,
      utf8Decode, fromBytesSigned])

/-- C10 (amended): when a single-tag decode succeeds with a reported size
that lies within the input, any appended suffix leaves the decoded name,
tag and size unchanged.  (Without the in-bounds hypothesis the claim fails:
clamped `int.from_bytes` reads make truncated decodes suffix-sensitive.) -/
theorem tag_decode_suffix_stable :
    ∀ (fuel : Nat) (B S nm : List Nat) (t : NTag) (w : Nat),
    Tag.deserialize fuel B = some (nm, t, w) → w ≤ B.length →
    Tag.deserialize fuel (B ++ S) = some (nm, t, w) :=
  fun fuel B S nm t w h hw => (decode_extend fuel).1 B S nm t w h hw

theorem tag_decode_suffix_stable_witness :
    Tag.deserialize 2 ([1, 0, 0, 42] ++ [9]) = some ([], NTag.TAG_Byte 42, 4) :=
  tag_decode_suffix_stable 2 [1, 0, 0, 42] [9] [] (NTag.TAG_Byte 42) 4
    (by simp [Tag.deserialize, deserialize_payload, deserialize_name, readBE,
      utf8Decode, fromBytesSigned])
    (by simp)

/-- C10 counterexample to the unamended claim: `01 00 00` decodes (the
clamped byte read of the empty payload slice yields 0 with size 4 > 3), yet
appending the byte `2A` changes the decoded payload to 42. -/
theorem tag_decode_suffix_sensitive :
    Tag.deserialize 2 [1, 0, 0] = some ([], NTag.TAG_Byte 0, 4) ∧
    Tag.deserialize 2 ([1, 0, 0] ++ [42]) = some ([], NTag.TAG_Byte 42, 4) ∧
    NTag.TAG_Byte 0 ≠ NTag.TAG_Byte 42 := by
  refine ⟨?_, ?_, by simp⟩
  · simp [Tag.deserialize, deserialize_payload, deserialize_name, readBE,
      utf8Decode, fromBytesSigned]
  · simp [Tag.deserialize, deserialize_payload, deserialize_name, readBE,
      utf8Decode, fromBytesSigned]

end APyNBT
